import Mathlib

/-!
Verification of the tsumego-solver Go engine.

The Rust code packs a 16-column by 8-row board into a 128-bit SIMD register.
We embed a BitBoard as a natural number below 2 to the 128, matching the
layout of the Rust u128 representation exactly: the cell in column c and
row r (0-based, c < 16, r < 8) corresponds to machine bit 127 - (c + 16 * r)
counted from the least significant end, because the Rust constructor builds
the singleton for index i as 0x8000...0000 shifted right by i.  The SIMD
per-lane 16-bit shifts used by shift_left and shift_right never move a bit
across a row boundary; this is reproduced here with explicit lane masks.
-/

set_option maxRecDepth 100000

deriving instance DecidableEq for Except

namespace Tsumego

/-- A board position: column below 16, row below 8, as in BoardPosition. -/
abbrev Pos := Fin 16 × Fin 8

/-- The index of a position as used by BoardPosition.new: column + 16 * row. -/
def posIdx (p : Pos) : Nat := p.1.val + 16 * p.2.val

/-- The machine bit (from the least significant end) holding position p. -/
def bitOf (p : Pos) : Nat := 127 - posIdx p

/-- Number of cells of the board. -/
def numCells : Nat := 128

/-- All 128 board bits set; the value of the SIMD all-ones register. -/
def allOnes : Nat := 2 ^ 128 - 1

/-- A bitboard is well formed when it fits in the 128-bit register. -/
def WF (x : Nat) : Prop := x < 2 ^ 128

instance (x : Nat) : Decidable (WF x) := by
  unfold WF
  infer_instance

/-- Membership of a position in a bitboard, reading the machine bit. -/
def memB (p : Pos) (x : Nat) : Prop := Nat.testBit x (bitOf p) = true

instance (p : Pos) (x : Nat) : Decidable (memB p x) := by
  unfold memB; infer_instance

/-- BitBoard::empty. -/
def emptyBB : Nat := 0

/-- BitBoard::singleton, the bit 0x8000... shifted right by the index. -/
def singletonBB (p : Pos) : Nat := 2 ^ (127 - posIdx p)

/-- BitBoard::top_edge: the row with index 0, the highest 16-bit lane. -/
def topEdge : Nat := 0xFFFF0000000000000000000000000000

/-- BitBoard::bottom_edge: the row with index 7, the lowest 16-bit lane. -/
def bottomEdge : Nat := 0xFFFF

/-- BitBoard::left_edge: column 0, the top bit of every 16-bit lane. -/
def leftEdge : Nat := 0x80008000800080008000800080008000

/-- BitBoard::right_edge: column 15, the bottom bit of every 16-bit lane. -/
def rightEdge : Nat := 0x00010001000100010001000100010001

/-- Lane mask used by shift_left: clears the bit that would cross from one
16-bit lane into the next, mirroring the per-lane SIMD shift. -/
def laneMaskL : Nat := 0xFFFEFFFEFFFEFFFEFFFEFFFEFFFEFFFE

/-- Lane mask used by shift_right. -/
def laneMaskR : Nat := 0x7FFF7FFF7FFF7FFF7FFF7FFF7FFF7FFF

/-- Bitwise complement on the 128-bit register, the Not instance. -/
def notB (x : Nat) : Nat := allOnes ^^^ x

/-- BitBoard::and_not: self with the bits of rhs removed. -/
def andNot (x y : Nat) : Nat := x &&& notB y

/-- BitBoard::shift_up: every cell moves one row up; the whole register is
shifted towards the most significant end by one 16-bit lane. -/
def shiftUp (x : Nat) : Nat := (x <<< 16) % 2 ^ 128

/-- BitBoard::shift_down: every cell moves one row down. -/
def shiftDown (x : Nat) : Nat := x >>> 16

/-- BitBoard::shift_left: every cell moves one column to the left; a
per-lane shift, so nothing crosses between rows. -/
def shiftLeft (x : Nat) : Nat := (x <<< 1) &&& laneMaskL

/-- BitBoard::shift_right. -/
def shiftRight (x : Nat) : Nat := (x >>> 1) &&& laneMaskR

/-- BitBoard::is_set. -/
def isSet (x : Nat) (p : Pos) : Prop := ¬ (x &&& singletonBB p = 0)

instance (x : Nat) (p : Pos) : Decidable (isSet x p) := by
  unfold isSet; infer_instance

/-- BitBoard::expand_one: grow the set of cells by one in each direction. -/
def expandOne (x : Nat) : Nat :=
  x ||| shiftUp x ||| shiftDown x ||| shiftLeft x ||| shiftRight x

/-- BitBoard::interior: cells all of whose neighbours are in the set, the
edges of the grid counting as in. -/
def interior (x : Nat) : Nat :=
  x &&& (shiftUp x ||| bottomEdge) &&& (shiftDown x ||| topEdge)
    &&& (shiftLeft x ||| rightEdge) &&& (shiftRight x ||| leftEdge)

/-- BitBoard::border. -/
def border (x : Nat) : Nat := andNot x (interior x)

/-- BitBoard::immediate_exterior. -/
def immediateExterior (x : Nat) : Nat := andNot (expandOne x) x

/-- BitBoard::singletons: cells with no set 4-neighbour. -/
def singletonsBB (x : Nat) : Nat :=
  andNot (andNot (andNot (andNot x (shiftUp x)) (shiftDown x)) (shiftLeft x))
    (shiftRight x)

/-- BitBoard::count, the population count of the 128 board bits. -/
def countBB (x : Nat) : Nat :=
  (List.range 128).countP (fun k => Nat.testBit x k)

/-- One step of the flood fill loop body. -/
def floodStep (filled mask : Nat) : Nat := expandOne filled &&& mask

/-- The flood fill loop with explicit fuel.  The Rust loop repeats until a
fixed point; every non-final step strictly grows the filled set, which has
at most 128 cells, so fuel 129 always reaches the fixed point. -/
def floodFillAux : Nat → Nat → Nat → Nat
  | 0, filled, _ => filled
  | fuel + 1, filled, mask =>
    let next := floodStep filled mask
    if next = filled then filled else floodFillAux fuel next mask

/-- BitBoard::flood_fill with the receiver as seed. -/
def floodFill (seed mask : Nat) : Nat := floodFillAux 129 (seed &&& mask) mask

/-- Base-two logarithm with fuel, so that the kernel can evaluate it; it
agrees with the library log2 on every 128-bit value. -/
def log2fuel : Nat → Nat → Nat
  | 0, _ => 0
  | fuel + 1, n => if n ≥ 2 then log2fuel fuel (n / 2) + 1 else 0

/-- The index of the highest set machine bit of a 128-bit register. -/
def bbLog2 (n : Nat) : Nat := log2fuel 128 n

/-- BitBoard::first_cell_board: the singleton of the set cell with the
smallest index, computed in the source from leading_zeros.  The highest set
machine bit is at position log2, and an empty board maps to the empty
board because shifting the top bit by 128 drops it. -/
def firstCellBoard (x : Nat) : Nat := if x = 0 then 0 else 2 ^ bbLog2 x

/-- Conversion from an index to a position. -/
def idxToPos (i : Nat) : Pos := (⟨i % 16, Nat.mod_lt _ (by omega)⟩,
  ⟨i / 16 % 8, Nat.mod_lt _ (by omega)⟩)

/-- BitBoard::first_cell_position for a non-empty board: the position whose
index equals the number of leading zeros of the register. -/
def firstCellPos (x : Nat) : Pos := idxToPos (127 - bbLog2 x)

/-- The group iterator: repeatedly flood fill from the first cell and
remove the component found.  Fuel 129 suffices because every found group
is non-empty and the board has 128 cells. -/
def groupsAux : Nat → Nat → List Nat
  | 0, _ => []
  | fuel + 1, x =>
    if x = 0 then []
    else
      let g := floodFill (firstCellBoard x) x
      g :: groupsAux fuel (andNot x g)

/-- BitBoard::groups as a list of components. -/
def groups (x : Nat) : List Nat := groupsAux 129 x

/-- The position iterator: repeatedly take the first cell and remove it. -/
def positionsAux : Nat → Nat → List Pos
  | 0, _ => []
  | fuel + 1, x =>
    if x = 0 then []
    else firstCellPos x :: positionsAux fuel (andNot x (singletonBB (firstCellPos x)))

/-- BitBoard::positions as a list. -/
def positions (x : Nat) : List Pos := positionsAux 129 x

/-- Two positions are 4-adjacent on the grid. -/
def Adjacent (p q : Pos) : Prop :=
  (p.1 = q.1 ∧ (p.2.val + 1 = q.2.val ∨ q.2.val + 1 = p.2.val)) ∨
  (p.2 = q.2 ∧ (p.1.val + 1 = q.1.val ∨ q.1.val + 1 = p.1.val))

instance (p q : Pos) : Decidable (Adjacent p q) := by
  unfold Adjacent
  infer_instance

/-- The set of positions of a bitboard. -/
def toF (x : Nat) : Finset Pos := Finset.univ.filter (fun p => memB p x)

/-- One step inside a mask: a move to an adjacent cell of the mask. -/
def StepIn (m : Nat) (p q : Pos) : Prop := Adjacent p q ∧ memB q m

/-- Reachability inside a mask. -/
def ReachIn (m : Nat) (p q : Pos) : Prop := Relation.ReflTransGen (StepIn m) p q

/-- A bitboard is 4-connected: every two of its cells are joined inside it. -/
def ConnB (g : Nat) : Prop := ∀ p q, memB p g → memB q g → ReachIn g p q

/-- A bitboard g is closed in x under adjacency: a cell of x next to g is in g. -/
def ClosedIn (x g : Nat) : Prop :=
  ∀ p q, memB p g → Adjacent p q → memB q x → memB q g

/-! ### The Go board (go.rs) -/

inductive GoPlayer
  | Black
  | White
deriving DecidableEq

def GoPlayer.flip : GoPlayer → GoPlayer
  | .Black => .White
  | .White => .Black

inductive BoardCell
  | Empty
  | OutOfBounds
  | Occupied (player : GoPlayer)
deriving DecidableEq

/-- GoBoard from go.rs: two bitboards; a cell set in both is out of bounds. -/
structure GoBoard where
  white : Nat
  black : Nat
deriving DecidableEq

/-- GoBoard::empty. -/
def GoBoard.empty : GoBoard := ⟨0, 0⟩

/-- GoBoard::new. -/
def GoBoard.new (black white out_of_bounds : Nat) : GoBoard :=
  ⟨white ||| out_of_bounds, black ||| out_of_bounds⟩

/-- GoBoard::empty_cells.  Empty cells, including out of bounds. -/
def GoBoard.empty_cells (b : GoBoard) : Nat := notB (b.white ^^^ b.black)

/-- GoBoard::out_of_bounds. -/
def GoBoard.out_of_bounds (b : GoBoard) : Nat := b.white &&& b.black

/-- GoBoard::set_cell. -/
def GoBoard.set_cell (b : GoBoard) (position : Pos) (cell : BoardCell) : GoBoard :=
  let mask := singletonBB position
  match cell with
  | .Empty => ⟨b.white &&& notB mask, b.black &&& notB mask⟩
  | .Occupied .Black => ⟨b.white &&& notB mask, b.black ||| mask⟩
  | .Occupied .White => ⟨b.white ||| mask, b.black &&& notB mask⟩
  | .OutOfBounds => ⟨b.white ||| mask, b.black ||| mask⟩

/-- GoBoard::get_cell. -/
def GoBoard.get_cell (b : GoBoard) (position : Pos) : BoardCell :=
  let mask := singletonBB position
  if ¬ (mask &&& b.out_of_bounds = 0) then .OutOfBounds
  else if ¬ (mask &&& b.white = 0) then .Occupied .White
  else if ¬ (mask &&& b.black = 0) then .Occupied .Black
  else .Empty

/-- GoBoard::get_bitboard_for_player: that player's single-colour stones. -/
def GoBoard.get_bitboard_for_player (b : GoBoard) : GoPlayer → Nat
  | .Black => b.black &&& notB b.white
  | .White => b.white &&& notB b.black

/-- GoBoard::set_bitboard_for_player. -/
def GoBoard.set_bitboard_for_player (b : GoBoard) (player : GoPlayer) (board : Nat) :
    GoBoard :=
  match player with
  | .Black => ⟨b.white, board ||| b.out_of_bounds⟩
  | .White => ⟨board ||| b.out_of_bounds, b.black⟩

/-- GoBoard::get_bitboard_at_position.  The Rust code panics when the cell
holds no single-colour stone; the failure is modelled as none. -/
def GoBoard.get_bitboard_at_position (b : GoBoard) (position : Pos) : Option Nat :=
  let mask := singletonBB position
  let whiteStones := b.get_bitboard_for_player .White
  let blackStones := b.get_bitboard_for_player .Black
  if ¬ (mask &&& whiteStones = 0) then some whiteStones
  else if ¬ (mask &&& blackStones = 0) then some blackStones
  else none

/-- GoBoard::group_has_liberties.  Note the intersection is with empty_cells,
which includes the out-of-bounds cells. -/
def GoBoard.group_has_liberties (b : GoBoard) (position : Pos) : Option Bool :=
  (b.get_bitboard_at_position position).map (fun mask =>
    let group := floodFill (singletonBB position) mask
    decide (¬ (expandOne group &&& b.empty_cells = 0)))

/-- GoBoard::get_alive_groups_for_player. -/
def GoBoard.get_alive_groups_for_player (b : GoBoard) (player : GoPlayer) : Nat :=
  let bitboard := b.get_bitboard_for_player player
  floodFill (expandOne b.empty_cells &&& bitboard) bitboard

/-- GoBoard::remove_dead_groups_for_player. -/
def GoBoard.remove_dead_groups_for_player (b : GoBoard) (player : GoPlayer) : GoBoard :=
  b.set_bitboard_for_player player (b.get_alive_groups_for_player player)

/-- GoBoard::has_dead_groups, testing Black first as GoPlayer::both does. -/
def GoBoard.has_dead_groups (b : GoBoard) : Bool :=
  decide (¬ (b.get_bitboard_for_player .Black = b.get_alive_groups_for_player .Black)) ||
  decide (¬ (b.get_bitboard_for_player .White = b.get_alive_groups_for_player .White))

/-- GoBoard::is_out_of_bounds. -/
def GoBoard.is_out_of_bounds (b : GoBoard) (position : Pos) : Bool :=
  decide (¬ (singletonBB position &&& b.out_of_bounds = 0))

/-- GoBoard::set_out_of_bounds. -/
def GoBoard.set_out_of_bounds (b : GoBoard) (oob : Nat) : GoBoard :=
  let prev := b.out_of_bounds
  ⟨(b.white &&& notB prev) ||| oob, (b.black &&& notB prev) ||| oob⟩

/-- Well-formedness of a board: both registers fit in 128 bits. -/
def GoBoard.WFB (b : GoBoard) : Prop := WF b.white ∧ WF b.black

instance (b : GoBoard) : Decidable b.WFB := by
  unfold GoBoard.WFB
  infer_instance

/-! ### Benson unconditional life (benson.rs) -/

/-- GoBoard::small_x_enclosed_regions. -/
def GoBoard.small_x_enclosed_regions (b : GoBoard) (x : GoPlayer) : Nat :=
  let regions := notB (b.get_bitboard_for_player x)
  let regions_with_empty_interiors :=
    floodFill (interior regions &&& b.empty_cells) regions
  regions &&& notB regions_with_empty_interiors

/-- One pass of the Benson loop: the for-loop over the blocks of the
remaining snapshot, removing every block that does not have two healthy
regions.  Returns the new remaining set and whether anything was removed. -/
def bensonPass (b : GoBoard) (regions : Nat) : List Nat → Nat → Nat × Bool
  | [], remaining => (remaining, false)
  | block :: rest, remaining =>
    let empty_intersections_in_regions := regions &&& b.empty_cells
    let unhealthy_regions :=
      floodFill (empty_intersections_in_regions &&& notB (immediateExterior block))
        regions
    let healthy_regions := regions &&& notB unhealthy_regions
    let more_than_one_healthy_region :=
      ¬ (healthy_regions = 0) ∧
      ¬ (healthy_regions &&&
          notB (floodFill (firstCellBoard healthy_regions) healthy_regions) = 0)
    if more_than_one_healthy_region then bensonPass b regions rest remaining
    else
      let result := bensonPass b regions rest (andNot remaining block)
      (result.1, true)

/-- The outer Benson loop.  Every iteration that continues removes at least
one block, and there are at most 128 block cells, so fuel 129 suffices. -/
def bensonLoop (b : GoBoard) (blocks : Nat) : Nat → Nat → Nat → Nat
  | 0, _, remaining => remaining
  | fuel + 1, regions, remaining =>
    let pass := bensonPass b regions (groups remaining) remaining
    if pass.2 then
      let removed_blocks := blocks &&& notB pass.1
      let regions2 :=
        regions &&& notB (floodFill (expandOne removed_blocks &&& regions) regions)
      bensonLoop b blocks fuel regions2 pass.1
    else pass.1

/-- GoBoard::unconditionally_alive_blocks_for_player. -/
def GoBoard.unconditionally_alive_blocks_for_player (b : GoBoard) (player : GoPlayer) :
    Nat :=
  let regions := b.small_x_enclosed_regions player
  let blocks := b.get_bitboard_for_player player
  bensonLoop b blocks 129 regions blocks

/-! ### The game state (go.rs) -/

inductive PassState
  | NoPass
  | PassedOnce
  | PassedTwice
deriving DecidableEq

inductive MoveError
  | Occupied
  | OutOfBounds
  | OutOfTurn
  | Suicidal
  | Ko
deriving DecidableEq

/-- The Move enum of go.rs. -/
inductive GoMove
  | Pass
  | Place (position : Pos)
deriving DecidableEq

structure GoGame where
  ko_violations : Nat
  board : GoBoard
  current_player : GoPlayer
  pass_state : PassState
deriving DecidableEq

/-- GoGame::from_board. -/
def GoGame.from_board (board : GoBoard) (current_player : GoPlayer) : GoGame :=
  ⟨0, board, current_player, .NoPass⟩

/-- Well-formedness of a game state. -/
def GoGame.WFG (g : GoGame) : Prop := g.board.WFB ∧ WF g.ko_violations

instance (g : GoGame) : Decidable g.WFG := by
  unfold GoGame.WFG
  infer_instance

/-- GoGame::place_stone. -/
def GoGame.place_stone (g : GoGame) (position : Pos) : Except MoveError GoGame :=
  if ¬ (g.board.get_cell position = .Empty) then .error .Occupied
  else if g.board.is_out_of_bounds position then .error .OutOfBounds
  else
    let next_player := g.current_player.flip
    let new_board :=
      (g.board.set_cell position (.Occupied g.current_player)).remove_dead_groups_for_player
        next_player
    if ¬ ((new_board.group_has_liberties position).getD false) then .error .Suicidal
    else if ¬ (g.ko_violations &&& singletonBB position = 0) then .error .Ko
    else
      let ko_violations :=
        if immediateExterior (singletonBB position) &&&
            g.board.get_bitboard_for_player g.current_player = 0 then
          singletonsBB (g.board.get_bitboard_for_player next_player &&&
            notB (new_board.get_bitboard_for_player next_player))
        else 0
      .ok ⟨ko_violations, new_board, next_player, .NoPass⟩

/-- GoGame::pass.  The Rust code panics on a finished game; modelled as none. -/
def GoGame.passMove (g : GoGame) : Option GoGame :=
  match g.pass_state with
  | .NoPass => some ⟨0, g.board, g.current_player.flip, .PassedOnce⟩
  | .PassedOnce => some ⟨0, g.board, g.current_player.flip, .PassedTwice⟩
  | .PassedTwice => none

/-- GoGame::play_move; the outer Option models the panic inside pass. -/
def GoGame.play_move (g : GoGame) (m : GoMove) : Option (Except MoveError GoGame) :=
  match m with
  | .Place position => some (g.place_stone position)
  | .Pass => (g.passMove).map .ok

/-- GoGame::play_move_for_player. -/
def GoGame.play_move_for_player (g : GoGame) (m : GoMove) (player : GoPlayer) :
    Option (Except MoveError GoGame) :=
  if ¬ (g.current_player = player) then some (.error .OutOfTurn)
  else g.play_move m

/-- GoGame::generate_placing_moves. -/
def GoGame.generate_placing_moves (g : GoGame) : List (GoGame × GoMove) :=
  (positions (notB (g.board.white ||| g.board.black))).filterMap (fun position =>
    match g.place_stone position with
    | .ok game => some (game, .Place position)
    | .error _ => none)

/-- GoGame::generate_moves.  The unconditional pass push panics on a
finished game, so the whole call is modelled as none there. -/
def GoGame.generate_moves (g : GoGame) : Option (List (GoGame × GoMove)) :=
  (g.passMove).map (fun pg => g.generate_placing_moves ++ [(pg, .Pass)])

/-! ### The terminal oracle (puzzle/terminal_detection.rs) -/

/-- is_defender_dead from terminal_detection.rs. -/
def is_defender_dead (board : GoBoard) (attacker : GoPlayer) : Bool :=
  let attacker_alive :=
    floodFill (expandOne board.out_of_bounds) (board.get_bitboard_for_player attacker)
  let maximum_living_shape := notB attacker_alive &&& notB board.out_of_bounds
  decide (countBB (interior maximum_living_shape) < 2)

/-- is_terminal from terminal_detection.rs. -/
def is_terminal (game : GoGame) (player attacker : GoPlayer) : Option Bool :=
  let defender := attacker.flip
  if game.pass_state = .PassedTwice then
    let defender_has_stones :=
      decide (¬ (game.board.get_bitboard_for_player defender = 0))
    some (xor (decide (player = attacker)) defender_has_stones)
  else if ¬ (game.board.unconditionally_alive_blocks_for_player defender = 0) then
    some (decide (defender = player))
  else if is_defender_dead game.board attacker then
    some (decide (attacker = player))
  else none

/-! ### The proof-number-search variant (puzzle.rs) -/

/-- Puzzle::is_defender_dead: a verbatim copy of the dead-shape test that
lives in puzzle.rs next to the proof-number search. -/
def Puzzle.is_defender_dead (board : GoBoard) (attacker : GoPlayer) : Bool :=
  let attacker_alive :=
    floodFill (expandOne board.out_of_bounds) (board.get_bitboard_for_player attacker)
  let maximum_living_shape := notB attacker_alive &&& notB board.out_of_bounds
  decide (countBB (interior maximum_living_shape) < 2)

/-- Puzzle::is_terminal from puzzle.rs, with the stored player and attacker
fields passed explicitly.  In the double-pass case it scores the position
by whose turn it is, not by whether the defender has stones. -/
def Puzzle.is_terminal (game : GoGame) (player attacker : GoPlayer) : Option Bool :=
  if game.pass_state = .PassedTwice then
    some (decide (game.current_player = player))
  else if ¬ (game.board.unconditionally_alive_blocks_for_player attacker.flip = 0) then
    some (decide (attacker.flip = player))
  else if Puzzle.is_defender_dead game.board attacker then
    some (decide (attacker = player))
  else none

/-! ### The negamax iteration (puzzle/solving_iteration.rs) -/

/-- The mutable solver state observed by negamax: the ancestors set and the
remaining answers of the abort controller, one consumed per call; the
deadline controller is modelled by the prescribed answer sequence.  The
hash set of games is modelled as a list without duplicates. -/
structure NState where
  parents : List GoGame
  aborts : List Bool
deriving DecidableEq

/-- HashSet::insert: a no-op when the element is already present. -/
def insertParent (g : GoGame) (l : List GoGame) : List GoGame :=
  if g ∈ l then l else g :: l

/-- One consultation of the abort controller. -/
def popAbort : NState → Bool × NState
  | ⟨ps, []⟩ => (false, ⟨ps, []⟩)
  | ⟨ps, a :: rest⟩ => (a, ⟨ps, rest⟩)

/-- The linear move ranker: order_moves returns generate_moves order.  The
call sites only reach it on non-terminal nodes, where generate_moves
cannot fail; the default covers the impossible branch. -/
def order_moves (g : GoGame) : List (GoGame × GoMove) := (g.generate_moves).getD []

/-- The for-loop body of negamax over the ranked children.  On an abort the
question mark operator propagates none immediately, skipping the removal
of the child from the parents set. -/
def negamaxChildren (rec : GoGame → Int → Int → Int → NState → Option Int × NState) :
    List (GoGame × GoMove) → Int → Int → Int → Int → NState → Option Int × NState
  | [], _, _, _, m, st => (some m, st)
  | (child, _) :: rest, alpha, beta, color, m, st =>
    if child ∈ st.parents then negamaxChildren rec rest alpha beta color m st
    else
      let st1 : NState := ⟨insertParent child st.parents, st.aborts⟩
      match rec child (-beta) (-alpha) (-color) st1 with
      | (none, st2) => (none, st2)
      | (some t0, st2) =>
        let t := -t0
        let st3 : NState := ⟨st2.parents.erase child, st2.aborts⟩
        let m2 := if t > m then t else m
        if m2 ≥ beta then (some m2, st3)
        else negamaxChildren rec rest (if m2 > alpha then m2 else alpha) beta color m2 st3

/-- The body of one negamax invocation: abort check, terminal check, then
either the depth cut-off (when no deeper recursion remains) or the loop
over the ranked children. -/
def negamaxBody (player attacker : GoPlayer)
    (deeper : Option (GoGame → Int → Int → Int → NState → Option Int × NState))
    (node : GoGame) (alpha beta color : Int) (st : NState) : Option Int × NState :=
  let consult := popAbort st
  if consult.1 then (none, consult.2)
  else
    match is_terminal node player attacker with
    | some value => (some (color * (if value then 1 else -1)), consult.2)
    | none =>
      match deeper with
      | none => (some 0, consult.2)
      | some rec =>
        negamaxChildren rec (order_moves node) alpha beta color (-1) consult.2

/-- SolvingIteration::negamax.  The fuel is max_depth minus depth; the
Rust recursion bottoms out when depth reaches max_depth. -/
def negamax (player attacker : GoPlayer) :
    Nat → GoGame → Int → Int → Int → NState → Option Int × NState
  | 0 => negamaxBody player attacker none
  | fuel2 + 1 => negamaxBody player attacker (some (negamax player attacker fuel2))

/-- SolvingIteration::solve: wraps negamax, inserting the root before the
call and removing it afterwards even when the result is none. -/
def solveIteration (player attacker : GoPlayer) (max_depth : Nat) (game : GoGame)
    (st : NState) : Option Int × NState :=
  let st1 : NState := ⟨insertParent game st.parents, st.aborts⟩
  let result := negamax player attacker max_depth game (-1) 1 1 st1
  (result.1, ⟨result.2.parents.erase game, result.2.aborts⟩)

/-! ### SGF conversion (go/sgf_conversion.rs) -/

/-- The tokens consumed and produced by the SGF layer.  Coordinates are
carried as positions: the external parser's one-based pairs and the plus
and minus one shifts of the Rust code cancel out and are not modelled. -/
inductive SgfToken
  | Add (color : GoPlayer) (coordinate : Pos)
  | Triangle (coordinate : Pos)
  | MoveTok (color : GoPlayer) (coordinate : Pos)
  | Other
deriving DecidableEq

/-- The first-node loop of from_sgf: setup stones and the triangle; a move
token in the first node panics, modelled as none. -/
def setupNode : GoBoard → Option Pos → List SgfToken → Option (GoBoard × Option Pos)
  | board, tri, [] => some (board, tri)
  | board, tri, token :: rest =>
    match token with
    | .Add color coordinate =>
      setupNode (board.set_cell coordinate (.Occupied color)) tri rest
    | .Triangle coordinate => setupNode board (some coordinate) rest
    | .MoveTok _ _ => none
    | .Other => setupNode board tri rest

/-- A later node of from_sgf: moves are played and unwrapped; an add token
panics, and an illegal move panics on unwrap, both modelled as none. -/
def playNode : GoGame → List SgfToken → Option GoGame
  | game, [] => some game
  | game, token :: rest =>
    match token with
    | .MoveTok color coordinate =>
      match game.play_move_for_player (.Place coordinate) color with
      | some (.ok g2) => playNode g2 rest
      | _ => none
    | .Add _ _ => none
    | _ => playNode game rest

/-- GoGame::from_sgf at token level: the first node gives setup stones and
the triangle location, whose flood fill through the empty cells becomes
the out-of-bounds set; later nodes are played as moves. -/
def from_sgf (nodes : List (List SgfToken)) : Option GoGame :=
  match nodes with
  | [] => none
  | first :: rest => do
    let setup ← setupNode GoBoard.empty none first
    let board2 :=
      match setup.2 with
      | some position =>
        setup.1.set_out_of_bounds
          (floodFill (singletonBB position) setup.1.empty_cells)
      | none => setup.1
    List.foldlM playNode (GoGame.from_board board2 .Black) rest

/-- GoBoard::to_sgf at token level: add tokens for the black stones then
the white stones, and a triangle at the first out-of-bounds cell; the
unwrap on an empty out-of-bounds set is modelled as none. -/
def to_sgf (b : GoBoard) : Option (List SgfToken) :=
  let tokens :=
    (([GoPlayer.Black, GoPlayer.White]).map (fun go_player =>
      (positions (b.get_bitboard_for_player go_player)).map
        (fun position => SgfToken.Add go_player position))).flatten
  match (positions b.out_of_bounds).head? with
  | some position => some (tokens ++ [SgfToken.Triangle position])
  | none => none

/-! ### Concrete boards used by the counterexamples and witnesses -/

/-- A 3 by 4 playable rectangle, columns 1 to 3 and rows 1 to 4, with no
stones; its interior is exactly the two adjacent cells in column 2, rows 2
and 3. -/
def openRegionPlayable : Nat := 0x00007000700070007000000000000000

def openRegionBoard : GoBoard := GoBoard.new 0 0 (notB openRegionPlayable)

def openRegionGame : GoGame := GoGame.from_board openRegionBoard .Black

/-- A black stone in the corner whose two neighbours are out of bounds. -/
def cornerBoard : GoBoard :=
  GoBoard.new (singletonBB (0, 0)) 0 (singletonBB (1, 0) ||| singletonBB (0, 1))

/-- A board that is entirely out of bounds. -/
def allOobBoard : GoBoard := GoBoard.new 0 0 allOnes

/-- A finished game: two passes have occurred. -/
def finishedGame : GoGame := ⟨0, allOobBoard, .Black, .PassedTwice⟩

/-- A finished game where it is the other side's turn. -/
def finishedGameWhite : GoGame := ⟨0, allOobBoard, .White, .PassedTwice⟩

/-- A white stone in the corner, black stone below it: black to play at
column 1, row 0 captures the single white stone. -/
def koBoard : GoBoard := GoBoard.new (singletonBB (0, 1)) (singletonBB (0, 0)) 0

def koGame : GoGame := GoGame.from_board koBoard .Black

/-- The position resulting from the capture, extracted by evaluation. -/
def koNextGame : GoGame :=
  match koGame.place_stone (1, 0) with
  | .ok g => g
  | .error _ => koGame

/-- The four-group board from the iterate_groups test of bit_board.rs:
row 1 holds a lone stone and a domino, rows 3 to 5 hold an L-shaped group
and a second bent group. -/
def groupsDemoBoard : Nat := 0x0000460000000E600820007000000000

/-- Boundary stones of a C-shaped playable ring: the arms are rows 2 and 6,
columns 4 to 10, joined by column 4 on the left and by column 10 on the
right except for a gap at column 10, row 4, which is itself a stone.  The
stones enclose the 19 playable cells completely, and also seal the four
cavity cells at row 4, columns 6 to 9 away from the rest of the board. -/
def cavityBlack : Nat := 0x00000FE0101017D0142017D010100FE0

/-- The out-of-bounds set that goes with cavityBlack: everything outside the
stone ring together with the sealed cavity at row 4, columns 6 to 9.  Every
cell adjacent to this set is a stone, but the set is not 4-connected. -/
def cavityOob : Nat := 0xFFFFF01FE00FE00FE3DFE00FE00FF01F

/-- The outside component of cavityOob alone: what the flood fill from the
triangle representative recovers, missing the four cavity cells. -/
def cavityOutside : Nat := 0xFFFFF01FE00FE00FE01FE00FE00FF01F

/-! ### Pointwise membership lemmas -/

theorem log2fuel_le : ∀ fuel n, n ≠ 0 → 2 ^ log2fuel fuel n ≤ n := by
  intro fuel
  induction fuel with
  | zero =>
    intro n h0
    simp only [log2fuel]
    omega
  | succ fuel ih =>
    intro n h0
    by_cases h2 : n ≥ 2
    · have hrec := ih (n / 2) (by omega)
      simp only [log2fuel, h2, if_true, pow_succ]
      omega
    · simp only [log2fuel, h2, if_false]
      omega

theorem lt_log2fuel : ∀ fuel n, n < 2 ^ fuel → n < 2 ^ (log2fuel fuel n + 1) := by
  intro fuel
  induction fuel with
  | zero =>
    intro n hn
    simp only [pow_zero] at hn
    simp only [log2fuel]
    omega
  | succ fuel ih =>
    intro n hn
    by_cases h2 : n ≥ 2
    · have hdiv : n / 2 < 2 ^ fuel := by
        have hp : 2 ^ (fuel + 1) = 2 * 2 ^ fuel := by ring
        omega
      have hrec := ih (n / 2) hdiv
      simp only [log2fuel, h2, if_true]
      have hp2 : 2 ^ (log2fuel fuel (n / 2) + 1 + 1) =
          2 * 2 ^ (log2fuel fuel (n / 2) + 1) := by ring
      omega
    · simp only [log2fuel, h2, if_false]
      omega

theorem posIdx_le (p : Pos) : posIdx p ≤ 127 := by
  obtain ⟨c, r⟩ := p
  have hc := c.isLt
  have hr := r.isLt
  simp only [posIdx]
  omega

theorem posIdx_idxToPos {i : Nat} (hi : i < 128) : posIdx (idxToPos i) = i := by
  simp only [posIdx, idxToPos]
  omega

theorem posIdx_inj {p q : Pos} (h : posIdx p = posIdx q) : p = q := by
  obtain ⟨c, r⟩ := p
  obtain ⟨c2, r2⟩ := q
  have hc := c.isLt
  have hc2 := c2.isLt
  simp only [posIdx] at h
  have h1 : c.val = c2.val := by omega
  have h2 : r.val = r2.val := by omega
  simp [Prod.ext_iff, Fin.ext_iff, h1, h2]

theorem memB_lor {p : Pos} {x y : Nat} : memB p (x ||| y) ↔ memB p x ∨ memB p y := by
  simp [memB, Nat.testBit_lor]

theorem memB_land {p : Pos} {x y : Nat} : memB p (x &&& y) ↔ memB p x ∧ memB p y := by
  simp [memB, Nat.testBit_land]

theorem memB_zero {p : Pos} : ¬ memB p 0 := by
  simp [memB]

theorem testBit_allOnes {k : Nat} (hk : k < 128) : Nat.testBit allOnes k = true := by
  have : allOnes = 2 ^ 128 - 1 := rfl
  rw [this, Nat.testBit_two_pow_sub_one]
  simpa using hk

theorem memB_notB {p : Pos} {x : Nat} : memB p (notB x) ↔ ¬ memB p x := by
  have hb : bitOf p < 128 := by
    have := posIdx_le p
    simp only [bitOf]
    omega
  simp only [memB, notB, Nat.testBit_xor, testBit_allOnes hb]
  cases h : Nat.testBit x (bitOf p) <;> simp

theorem memB_andNot {p : Pos} {x y : Nat} : memB p (andNot x y) ↔ memB p x ∧ ¬ memB p y := by
  simp [andNot, memB_land, memB_notB]

theorem memB_singletonBB {p q : Pos} : memB q (singletonBB p) ↔ q = p := by
  have hp := posIdx_le p
  have hq := posIdx_le q
  simp only [memB, singletonBB, bitOf, Nat.testBit_two_pow, decide_eq_true_eq]
  constructor
  · intro h
    have : posIdx q = posIdx p := by omega
    exact posIdx_inj this
  · intro h
    subst h
    rfl

theorem isSet_iff_memB {x : Nat} {p : Pos} : isSet x p ↔ memB p x := by
  simp only [isSet]
  constructor
  · intro h
    by_contra hmem
    apply h
    apply Nat.eq_of_testBit_eq
    intro i
    simp only [Nat.testBit_land, Nat.zero_testBit]
    by_cases hi : i = bitOf p
    · subst hi
      simp only [memB] at hmem
      simp [hmem]
    · have : Nat.testBit (singletonBB p) i = false := by
        simp only [singletonBB, Nat.testBit_two_pow]
        simp only [bitOf] at hi
        simp [Ne.symm hi]
      simp [this]
  · intro h heq
    have : Nat.testBit (x &&& singletonBB p) (bitOf p) = false := by
      rw [heq]; simp
    rw [Nat.testBit_land] at this
    simp only [memB] at h
    rw [h] at this
    have hsel : Nat.testBit (singletonBB p) (bitOf p) = true := by
      simp [singletonBB, bitOf, Nat.testBit_two_pow]
    rw [hsel] at this
    simp at this

/-- Bit characterization of the left-lane mask: every bit except lane bit 0. -/
theorem testBit_laneMaskL {k : Nat} (hk : k < 128) :
    Nat.testBit laneMaskL k = decide (k % 16 ≠ 0) := by
  have h : ∀ j : Fin 128, Nat.testBit laneMaskL j.val = decide (j.val % 16 ≠ 0) := by decide
  exact h ⟨k, hk⟩

/-- Bit characterization of the right-lane mask: every bit except lane bit 15. -/
theorem testBit_laneMaskR {k : Nat} (hk : k < 128) :
    Nat.testBit laneMaskR k = decide (k % 16 ≠ 15) := by
  have h : ∀ j : Fin 128, Nat.testBit laneMaskR j.val = decide (j.val % 16 ≠ 15) := by decide
  exact h ⟨k, hk⟩

theorem memB_shiftUp {x : Nat} {p : Pos} :
    memB p (shiftUp x) ↔ ∃ h : p.2.val + 1 < 8, memB (p.1, ⟨p.2.val + 1, h⟩) x := by
  obtain ⟨c, r⟩ := p
  have hc := c.isLt
  have hr := r.isLt
  simp only [memB, shiftUp, bitOf, posIdx, Nat.testBit_mod_two_pow, Nat.testBit_shiftLeft,
    Bool.and_eq_true, decide_eq_true_eq]
  by_cases h8 : r.val + 1 < 8
  · have hidx : 127 - (c.val + 16 * r.val) - 16 = 127 - (c.val + 16 * (r.val + 1)) := by omega
    simp only [h8, exists_true_left]
    constructor
    · rintro ⟨-, -, hbit⟩
      rw [hidx] at hbit
      exact hbit
    · intro hbit
      refine ⟨by omega, by omega, ?_⟩
      rw [hidx]
      exact hbit
  · have : ¬ (127 - (c.val + 16 * r.val) ≥ 16) := by omega
    simp [this, h8]

theorem memB_shiftDown {x : Nat} (hx : WF x) {p : Pos} :
    memB p (shiftDown x) ↔ ∃ h : 1 ≤ p.2.val, memB (p.1, ⟨p.2.val - 1, by omega⟩) x := by
  obtain ⟨c, r⟩ := p
  have hc := c.isLt
  have hr := r.isLt
  simp only [memB, shiftDown, bitOf, posIdx, Nat.testBit_shiftRight]
  by_cases h1 : 1 ≤ r.val
  · have hidx : 16 + (127 - (c.val + 16 * r.val)) = 127 - (c.val + 16 * (r.val - 1)) := by
      omega
    rw [hidx]
    simp [h1]
  · have hbig : 128 ≤ 16 + (127 - (c.val + 16 * r.val)) := by omega
    have hfalse : Nat.testBit x (16 + (127 - (c.val + 16 * r.val))) = false := by
      apply Nat.testBit_eq_false_of_lt
      calc x < 2 ^ 128 := hx
        _ ≤ 2 ^ (16 + (127 - (c.val + 16 * r.val))) := Nat.pow_le_pow_right (by omega) hbig
    simp [hfalse, h1]

theorem memB_shiftLeft {x : Nat} {p : Pos} :
    memB p (shiftLeft x) ↔ ∃ h : p.1.val + 1 < 16, memB (⟨p.1.val + 1, h⟩, p.2) x := by
  obtain ⟨c, r⟩ := p
  have hc := c.isLt
  have hr := r.isLt
  have hk : 127 - (c.val + 16 * r.val) < 128 := by omega
  simp only [memB, shiftLeft, bitOf, posIdx, Nat.testBit_land, Nat.testBit_shiftLeft,
    testBit_laneMaskL hk, Bool.and_eq_true, decide_eq_true_eq]
  by_cases h16 : c.val + 1 < 16
  · have hne : (127 - (c.val + 16 * r.val)) % 16 ≠ 0 := by omega
    have hidx : 127 - (c.val + 16 * r.val) - 1 = 127 - (c.val + 1 + 16 * r.val) := by omega
    constructor
    · rintro ⟨⟨-, hbit⟩, -⟩
      rw [hidx] at hbit
      exact ⟨h16, hbit⟩
    · rintro ⟨-, hbit⟩
      rw [← hidx] at hbit
      exact ⟨⟨by omega, hbit⟩, hne⟩
  · have hmod : (127 - (c.val + 16 * r.val)) % 16 = 0 := by omega
    simp [hmod, h16]

theorem memB_shiftRight {x : Nat} {p : Pos} :
    memB p (shiftRight x) ↔ ∃ h : 1 ≤ p.1.val, memB (⟨p.1.val - 1, by omega⟩, p.2) x := by
  obtain ⟨c, r⟩ := p
  have hc := c.isLt
  have hr := r.isLt
  have hk : 127 - (c.val + 16 * r.val) < 128 := by omega
  simp only [memB, shiftRight, bitOf, posIdx, Nat.testBit_land, Nat.testBit_shiftRight,
    testBit_laneMaskR hk, Bool.and_eq_true, decide_eq_true_eq]
  by_cases h1 : 1 ≤ c.val
  · have hne : (127 - (c.val + 16 * r.val)) % 16 ≠ 15 := by omega
    have hidx : 1 + (127 - (c.val + 16 * r.val)) = 127 - (c.val - 1 + 16 * r.val) := by omega
    constructor
    · rintro ⟨hbit, -⟩
      rw [hidx] at hbit
      exact ⟨h1, hbit⟩
    · rintro ⟨-, hbit⟩
      rw [← hidx] at hbit
      exact ⟨hbit, hne⟩
  · have hmod : (127 - (c.val + 16 * r.val)) % 16 = 15 := by omega
    simp [hmod, h1]

/-! ### Adjacency and the expand-one characterization -/

theorem adjacent_symm {p q : Pos} (h : Adjacent p q) : Adjacent q p := by
  rcases h with ⟨h1, h2⟩ | ⟨h1, h2⟩
  · exact Or.inl ⟨h1.symm, h2.symm⟩
  · exact Or.inr ⟨h1.symm, h2.symm⟩

theorem memB_congr {p q : Pos} {x : Nat} (h : p = q) : memB p x ↔ memB q x := by rw [h]

theorem memB_expandOne {x : Nat} (hx : WF x) {p : Pos} :
    memB p (expandOne x) ↔ memB p x ∨ ∃ q, Adjacent p q ∧ memB q x := by
  obtain ⟨c, r⟩ := p
  simp only [expandOne, memB_lor, memB_shiftUp, memB_shiftDown hx, memB_shiftLeft,
    memB_shiftRight]
  constructor
  · rintro ((((hp | ⟨h8, hup⟩) | ⟨h1, hdn⟩) | ⟨h16, hlf⟩) | ⟨h1, hrt⟩)
    · exact Or.inl hp
    · exact Or.inr ⟨(c, ⟨r.val + 1, h8⟩), Or.inl ⟨rfl, Or.inl rfl⟩, hup⟩
    · refine Or.inr ⟨(c, ⟨r.val - 1, by omega⟩), Or.inl ⟨rfl, Or.inr (by simp; omega)⟩, hdn⟩
    · exact Or.inr ⟨(⟨c.val + 1, h16⟩, r), Or.inr ⟨rfl, Or.inl rfl⟩, hlf⟩
    · refine Or.inr ⟨(⟨c.val - 1, by omega⟩, r), Or.inr ⟨rfl, Or.inr (by simp; omega)⟩, hrt⟩
  · rintro (hp | ⟨⟨qc, qr⟩, (⟨hfst, hud⟩ | ⟨hsnd, hlr⟩), hq⟩)
    · exact Or.inl (Or.inl (Or.inl (Or.inl hp)))
    · replace hfst : c = qc := hfst
      subst hfst
      obtain ⟨qrv, hqrlt⟩ := qr
      rcases hud with hup | hdn
      · replace hup : r.val + 1 = qrv := hup
        subst hup
        exact Or.inl (Or.inl (Or.inl (Or.inr ⟨hqrlt, hq⟩)))
      · replace hdn : qrv + 1 = r.val := hdn
        refine Or.inl (Or.inl (Or.inr ⟨by omega, ?_⟩))
        have he : ((c, ⟨r.val - 1, by omega⟩) : Pos) = (c, ⟨qrv, hqrlt⟩) :=
          congrArg (Prod.mk c) (Fin.ext (show r.val - 1 = qrv by omega))
        exact (memB_congr he).2 hq
    · replace hsnd : r = qr := hsnd
      subst hsnd
      obtain ⟨qcv, hqclt⟩ := qc
      rcases hlr with hlf | hrt
      · replace hlf : c.val + 1 = qcv := hlf
        subst hlf
        exact Or.inl (Or.inr ⟨hqclt, hq⟩)
      · replace hrt : qcv + 1 = c.val := hrt
        refine Or.inr ⟨by omega, ?_⟩
        have he : ((⟨c.val - 1, by omega⟩, r) : Pos) = (⟨qcv, hqclt⟩, r) :=
          congrArg (fun z : Fin 16 => (z, r)) (Fin.ext (show c.val - 1 = qcv by omega))
        exact (memB_congr he).2 hq

theorem memB_expandOne_self {x : Nat} {p : Pos} (h : memB p x) : memB p (expandOne x) := by
  simp only [expandOne, memB_lor]
  exact Or.inl (Or.inl (Or.inl (Or.inl h)))

/-! ### Well-formedness preservation -/

theorem wf_land_right {x y : Nat} (hy : WF y) : WF (x &&& y) := Nat.and_lt_two_pow x hy

theorem wf_land_left {x y : Nat} (hx : WF x) : WF (x &&& y) := by
  rw [Nat.land_comm]
  exact Nat.and_lt_two_pow y hx

theorem wf_lor {x y : Nat} (hx : WF x) (hy : WF y) : WF (x ||| y) := Nat.or_lt_two_pow hx hy

theorem wf_allOnes : WF allOnes := by
  simp only [WF, allOnes]
  omega

theorem wf_notB {x : Nat} (hx : WF x) : WF (notB x) := Nat.xor_lt_two_pow wf_allOnes hx

theorem wf_andNot {x y : Nat} (hx : WF x) : WF (andNot x y) := wf_land_left hx

theorem wf_shiftUp {x : Nat} : WF (shiftUp x) := Nat.mod_lt _ (by positivity)

theorem wf_shiftDown {x : Nat} (hx : WF x) : WF (shiftDown x) := by
  have : shiftDown x ≤ x := by
    simp only [shiftDown, Nat.shiftRight_eq_div_pow]
    exact Nat.div_le_self _ _
  exact lt_of_le_of_lt this hx

theorem wf_laneMaskL : WF laneMaskL := by
  simp only [WF, laneMaskL]
  norm_num

theorem wf_laneMaskR : WF laneMaskR := by
  simp only [WF, laneMaskR]
  norm_num

theorem wf_shiftLeft {x : Nat} : WF (shiftLeft x) := wf_land_right wf_laneMaskL

theorem wf_shiftRight {x : Nat} : WF (shiftRight x) := wf_land_right wf_laneMaskR

theorem wf_expandOne {x : Nat} (hx : WF x) : WF (expandOne x) :=
  wf_lor (wf_lor (wf_lor (wf_lor hx wf_shiftUp) (wf_shiftDown hx)) wf_shiftLeft) wf_shiftRight

theorem wf_singletonBB {p : Pos} : WF (singletonBB p) := by
  have := posIdx_le p
  simp only [WF, singletonBB]
  exact Nat.pow_lt_pow_right (by omega) (by omega)

theorem wf_interior {x : Nat} (hx : WF x) : WF (interior x) := wf_land_left (by
  exact wf_land_left (wf_land_left (wf_land_left hx)))

theorem wf_floodStep {f m : Nat} (hm : WF m) : WF (floodStep f m) := wf_land_right hm

theorem wf_floodFillAux {fuel f m : Nat} (hm : WF m) (hf : WF f) :
    WF (floodFillAux fuel f m) := by
  induction fuel generalizing f with
  | zero => exact hf
  | succ n ih =>
    simp only [floodFillAux]
    by_cases hfix : floodStep f m = f
    · simp [hfix, hf]
    · simp only [hfix, if_false]
      exact ih (wf_floodStep hm)

theorem wf_floodFill {s m : Nat} (hm : WF m) : WF (floodFill s m) :=
  wf_floodFillAux hm (wf_land_right hm)

theorem wf_firstCellBoard {x : Nat} (hx : WF x) : WF (firstCellBoard x) := by
  simp only [firstCellBoard]
  by_cases h0 : x = 0
  · simp [h0, WF]
  · simp only [h0, if_false]
    exact lt_of_le_of_lt (log2fuel_le 128 x h0) hx

/-! ### Extensionality and the finite-set view -/

theorem bb_ext {x y : Nat} (hx : WF x) (hy : WF y) (h : ∀ p, memB p x ↔ memB p y) :
    x = y := by
  apply Nat.eq_of_testBit_eq
  intro i
  by_cases hi : i < 128
  · have := h (idxToPos (127 - i))
    simp only [memB, bitOf, posIdx_idxToPos (show 127 - i < 128 by omega)] at this
    have hii : 127 - (127 - i) = i := by omega
    rw [hii] at this
    cases hxb : Nat.testBit x i
    · cases hyb : Nat.testBit y i
      · rfl
      · exact absurd (this.2 hyb) (by simp [hxb])
    · exact (this.1 hxb).symm
  · have h1 : Nat.testBit x i = false :=
      Nat.testBit_eq_false_of_lt (lt_of_lt_of_le hx (Nat.pow_le_pow_right (by omega) (by omega)))
    have h2 : Nat.testBit y i = false :=
      Nat.testBit_eq_false_of_lt (lt_of_lt_of_le hy (Nat.pow_le_pow_right (by omega) (by omega)))
    rw [h1, h2]

theorem mem_toF {x : Nat} {p : Pos} : p ∈ toF x ↔ memB p x := by
  simp [toF]

theorem toF_subset {x y : Nat} (h : ∀ p, memB p x → memB p y) : toF x ⊆ toF y := by
  intro p hp
  exact mem_toF.2 (h p (mem_toF.1 hp))

theorem card_toF_le (x : Nat) : (toF x).card ≤ 128 := by
  calc (toF x).card ≤ Finset.univ.card := Finset.card_le_univ _
    _ = 128 := by simp [Finset.card_univ]

/-! ### Flood fill: soundness, fixed point, characterization -/

theorem reachIn_mono {m m2 : Nat} (h : ∀ p, memB p m → memB p m2) {p q : Pos}
    (hr : ReachIn m p q) : ReachIn m2 p q := by
  induction hr with
  | refl => exact Relation.ReflTransGen.refl
  | tail _ hs ih => exact ih.tail ⟨hs.1, h _ hs.2⟩

theorem reachIn_mem {m : Nat} {p q : Pos} (hp : memB p m) (hr : ReachIn m p q) :
    memB q m := by
  induction hr with
  | refl => exact hp
  | tail _ hs _ => exact hs.2

theorem reachIn_symm {m : Nat} {p q : Pos} (hp : memB p m) (hr : ReachIn m p q) :
    ReachIn m q p := by
  induction hr with
  | refl => exact Relation.ReflTransGen.refl
  | tail hab hs ih =>
    rename_i b c
    have hb : memB b m := reachIn_mem hp hab
    exact Relation.ReflTransGen.trans
      (Relation.ReflTransGen.single ⟨adjacent_symm hs.1, hb⟩) ih

theorem floodFillAux_subset_mask {fuel f m : Nat} (h : ∀ p, memB p f → memB p m) :
    ∀ p, memB p (floodFillAux fuel f m) → memB p m := by
  induction fuel generalizing f with
  | zero => exact h
  | succ n ih =>
    intro p hp
    simp only [floodFillAux] at hp
    by_cases hfix : floodStep f m = f
    · simp only [hfix, if_true] at hp
      exact h p hp
    · simp only [hfix, if_false] at hp
      exact ih (fun q hq => (memB_land.1 hq).2) p hp

theorem floodFillAux_superset {fuel f m : Nat} (h : ∀ p, memB p f → memB p m) :
    ∀ p, memB p f → memB p (floodFillAux fuel f m) := by
  induction fuel generalizing f with
  | zero => exact fun p hp => hp
  | succ n ih =>
    intro p hp
    simp only [floodFillAux]
    by_cases hfix : floodStep f m = f
    · simp only [hfix, if_true]
      exact hp
    · simp only [hfix, if_false]
      exact ih (fun q hq => (memB_land.1 hq).2) p
        (memB_land.2 ⟨memB_expandOne_self hp, h p hp⟩)

theorem floodFillAux_fix {m : Nat} (hm : WF m) :
    ∀ fuel f, WF f → (∀ p, memB p f → memB p m) →
      (toF m).card - (toF f).card < fuel →
      floodStep (floodFillAux fuel f m) m = floodFillAux fuel f m := by
  intro fuel
  induction fuel with
  | zero => exact fun f _ _ hlt => absurd hlt (Nat.not_lt_zero _)
  | succ n ih =>
    intro f hf hsub hlt
    simp only [floodFillAux]
    by_cases hfix : floodStep f m = f
    · simp only [hfix, if_true]
    · simp only [hfix, if_false]
      have hnextwf : WF (floodStep f m) := wf_floodStep hm
      have hnextsub : ∀ p, memB p (floodStep f m) → memB p m :=
        fun q hq => (memB_land.1 hq).2
      have hgrow : ∀ p, memB p f → memB p (floodStep f m) :=
        fun q hq => memB_land.2 ⟨memB_expandOne_self hq, hsub q hq⟩
      have hssub : toF f ⊂ toF (floodStep f m) := by
        refine ⟨toF_subset hgrow, ?_⟩
        intro hcontra
        apply hfix
        apply bb_ext hnextwf hf
        intro p
        constructor
        · intro hp
          exact mem_toF.1 (hcontra (mem_toF.2 hp))
        · exact hgrow p
      have hcard : (toF f).card < (toF (floodStep f m)).card := Finset.card_lt_card hssub
      have hcard2 : (toF (floodStep f m)).card ≤ (toF m).card :=
        Finset.card_le_card (toF_subset hnextsub)
      exact ih (floodStep f m) hnextwf hnextsub (by omega)

theorem floodFillAux_sound {m : Nat} (hm : WF m) (C : Pos → Prop)
    (hC : ∀ z w, C z → Adjacent z w → memB w m → C w) :
    ∀ fuel f, WF f → (∀ z, memB z f → C z) →
      ∀ q, memB q (floodFillAux fuel f m) → C q := by
  intro fuel
  induction fuel with
  | zero => exact fun f _ hbase q hq => hbase q hq
  | succ n ih =>
    intro f hf hbase q hq
    simp only [floodFillAux] at hq
    by_cases hfix : floodStep f m = f
    · simp only [hfix, if_true] at hq
      exact hbase q hq
    · simp only [hfix, if_false] at hq
      refine ih (floodStep f m) (wf_floodStep hm) ?_ q hq
      intro z hz
      obtain ⟨hexp, hzm⟩ := memB_land.1 hz
      rcases (memB_expandOne hf).1 hexp with hzf | ⟨w, hadj, hwf⟩
      · exact hbase z hzf
      · exact hC w z (hbase w hwf) (adjacent_symm hadj) hzm

/-- The flood fill computes exactly the cells of the mask reachable from a
seed cell that lies in the mask. -/
theorem mem_floodFill {s m : Nat} (hm : WF m) {q : Pos} :
    memB q (floodFill s m) ↔ ∃ p, memB p s ∧ memB p m ∧ ReachIn m p q := by
  constructor
  · apply floodFillAux_sound hm (fun z => ∃ p, memB p s ∧ memB p m ∧ ReachIn m p z)
    · rintro z w ⟨p, hp1, hp2, hr⟩ hadj hwm
      exact ⟨p, hp1, hp2, hr.tail ⟨hadj, hwm⟩⟩
    · exact wf_land_right hm
    · intro z hz
      obtain ⟨h1, h2⟩ := memB_land.1 hz
      exact ⟨z, h1, h2, Relation.ReflTransGen.refl⟩
  · rintro ⟨p, hs, hpm, hr⟩
    induction hr with
    | refl =>
      exact floodFillAux_superset (fun z hz => (memB_land.1 hz).2) p
        (memB_land.2 ⟨hs, hpm⟩)
    | tail hab hbc ih =>
      rename_i b c
      have hfix := floodFillAux_fix hm 129 (s &&& m) (wf_land_right hm)
        (fun z hz => (memB_land.1 hz).2)
        (by have := card_toF_le m; omega)
      have hwfres : WF (floodFill s m) := wf_floodFill hm
      have hc : memB c (floodStep (floodFill s m) m) := by
        refine memB_land.2 ⟨?_, hbc.2⟩
        rw [memB_expandOne hwfres]
        exact Or.inr ⟨b, adjacent_symm hbc.1, ih⟩
      have hc2 : memB c (floodStep (floodFillAux 129 (s &&& m) m) m) := hc
      rw [hfix] at hc2
      exact hc2

/-! ### First cell, positions, groups -/

theorem bbLog2_le_127 {x : Nat} (hx : WF x) (h0 : x ≠ 0) : bbLog2 x ≤ 127 := by
  by_contra hcontra
  have h1 : 2 ^ bbLog2 x ≤ x := log2fuel_le 128 x h0
  have h2 : (2 : Nat) ^ 128 ≤ 2 ^ bbLog2 x := Nat.pow_le_pow_right (by omega) (by omega)
  exact absurd hx (by simp only [WF]; omega)

theorem testBit_bbLog2 {x : Nat} (hx : WF x) (h0 : x ≠ 0) :
    Nat.testBit x (bbLog2 x) = true := by
  rw [Nat.testBit_to_div_mod]
  have h1 : 2 ^ bbLog2 x ≤ x := log2fuel_le 128 x h0
  have h2 : x < 2 ^ (bbLog2 x + 1) := lt_log2fuel 128 x hx
  have hdiv : x / 2 ^ bbLog2 x = 1 := by
    apply Nat.div_eq_of_lt_le
    · simpa using h1
    · have hp : 2 ^ (bbLog2 x + 1) = 2 * 2 ^ bbLog2 x := by ring
      omega
  simp [hdiv]

theorem memB_firstCellPos {x : Nat} (hx : WF x) (h0 : x ≠ 0) : memB (firstCellPos x) x := by
  have hl := bbLog2_le_127 hx h0
  simp only [memB, firstCellPos, bitOf,
    posIdx_idxToPos (show 127 - bbLog2 x < 128 by omega)]
  have he : 127 - (127 - bbLog2 x) = bbLog2 x := by omega
  rw [he]
  exact testBit_bbLog2 hx h0

theorem firstCellBoard_eq {x : Nat} (hx : WF x) (h0 : x ≠ 0) :
    firstCellBoard x = singletonBB (firstCellPos x) := by
  have hl := bbLog2_le_127 hx h0
  simp only [firstCellBoard, h0, if_false, singletonBB, firstCellPos,
    posIdx_idxToPos (show 127 - bbLog2 x < 128 by omega)]
  congr 1
  omega

theorem toF_andNot_singleton {x : Nat} {p : Pos} :
    toF (andNot x (singletonBB p)) = (toF x).erase p := by
  ext q
  simp only [mem_toF, memB_andNot, memB_singletonBB, Finset.mem_erase]
  tauto

theorem mem_positionsAux :
    ∀ fuel x, WF x → (toF x).card < fuel →
      ∀ p, p ∈ positionsAux fuel x ↔ memB p x := by
  intro fuel
  induction fuel with
  | zero => exact fun x _ hlt => absurd hlt (Nat.not_lt_zero _)
  | succ n ih =>
    intro x hx hlt p
    by_cases h0 : x = 0
    · subst h0
      simp only [positionsAux, if_true]
      simp [memB_zero]
    · simp only [positionsAux, h0, if_false, List.mem_cons]
      have hfc := memB_firstCellPos hx h0
      have hcard : (toF (andNot x (singletonBB (firstCellPos x)))).card =
          (toF x).card - 1 := by
        rw [toF_andNot_singleton]
        exact Finset.card_erase_of_mem (mem_toF.2 hfc)
      have hfc_card : 0 < (toF x).card := Finset.card_pos.2 ⟨_, mem_toF.2 hfc⟩
      rw [ih _ (wf_andNot hx) (by omega)]
      simp only [memB_andNot, memB_singletonBB]
      constructor
      · rintro (rfl | ⟨hmem, -⟩)
        · exact hfc
        · exact hmem
      · intro hmem
        by_cases hp : p = firstCellPos x
        · exact Or.inl hp
        · exact Or.inr ⟨hmem, hp⟩

theorem mem_positions {x : Nat} (hx : WF x) {p : Pos} :
    p ∈ positions x ↔ memB p x :=
  mem_positionsAux 129 x hx (by have := card_toF_le x; omega) p

theorem positionsAux_succ {n x : Nat} (h0 : x ≠ 0) :
    positionsAux (n + 1) x =
      firstCellPos x :: positionsAux n (andNot x (singletonBB (firstCellPos x))) := by
  simp only [positionsAux, h0, if_false]

theorem positions_head {x : Nat} (h0 : x ≠ 0) :
    (positions x).head? = some (firstCellPos x) := by
  show (positionsAux (128 + 1) x).head? = some (firstCellPos x)
  rw [positionsAux_succ h0]
  rfl

/-! ### Connected components -/

theorem reachIn_closed {t x g : Nat} (hclosed : ClosedIn x g)
    (htx : ∀ p, memB p t → memB p x) {a b : Pos} (hr : ReachIn t a b)
    (ha : memB a g) : memB b g := by
  induction hr with
  | refl => exact ha
  | tail _ hs ih => exact hclosed _ _ ih hs.1 (htx _ hs.2)

theorem maximal_of_closed {x g : Nat} (hgx : ∀ p, memB p g → memB p x)
    (hclosed : ClosedIn x g) {c : Pos} (hc : memB c g)
    {t : Nat} (htx : ∀ p, memB p t → memB p x) (htconn : ConnB t)
    (hgt : ∀ p, memB p g → memB p t) : ∀ p, memB p t → memB p g := by
  intro p hp
  exact reachIn_closed hclosed htx (htconn c p (hgt c hc) hp) hc

/-- Characterization of the first component extracted by the group iterator. -/
theorem mem_firstGroup {x : Nat} (hx : WF x) (h0 : x ≠ 0) {q : Pos} :
    memB q (floodFill (firstCellBoard x) x) ↔ ReachIn x (firstCellPos x) q := by
  rw [mem_floodFill hx]
  constructor
  · rintro ⟨p, hp1, -, hr⟩
    rw [firstCellBoard_eq hx h0, memB_singletonBB] at hp1
    subst hp1
    exact hr
  · intro hr
    exact ⟨firstCellPos x, by
      rw [firstCellBoard_eq hx h0, memB_singletonBB], memB_firstCellPos hx h0, hr⟩

theorem reachIn_into_comp {x g : Nat} {c : Pos}
    (hchar : ∀ q, memB q g ↔ ReachIn x c q) {q : Pos} (hr : ReachIn x c q) :
    ReachIn g c q := by
  induction hr with
  | refl => exact Relation.ReflTransGen.refl
  | tail hab hs ih =>
    rename_i b d
    exact ih.tail ⟨hs.1, (hchar d).2 ((Relation.ReflTransGen.tail hab hs))⟩

theorem firstGroup_conn {x g : Nat} {c : Pos}
    (hchar : ∀ q, memB q g ↔ ReachIn x c q) : ConnB g := by
  intro p q hp hq
  have hcg : memB c g := (hchar c).2 Relation.ReflTransGen.refl
  have h1 : ReachIn g c p := reachIn_into_comp hchar ((hchar p).1 hp)
  have h2 : ReachIn g c q := reachIn_into_comp hchar ((hchar q).1 hq)
  exact Relation.ReflTransGen.trans (reachIn_symm hcg h1) h2

theorem firstGroup_closed {x g : Nat} {c : Pos}
    (hchar : ∀ q, memB q g ↔ ReachIn x c q) : ClosedIn x g := by
  intro p q hp hadj hq
  exact (hchar q).2 (((hchar p).1 hp).tail ⟨hadj, hq⟩)

theorem memB_foldr_lor {l : List Nat} {p : Pos} :
    memB p (l.foldr (fun a b => a ||| b) 0) ↔ ∃ g ∈ l, memB p g := by
  induction l with
  | nil => simp [memB_zero]
  | cons a l ih =>
    simp only [List.foldr_cons, memB_lor, ih, List.mem_cons]
    constructor
    · rintro (h | ⟨g, hg, hp⟩)
      · exact ⟨a, Or.inl rfl, h⟩
      · exact ⟨g, Or.inr hg, hp⟩
    · rintro ⟨g, rfl | hg, hp⟩
      · exact Or.inl hp
      · exact Or.inr ⟨g, hg, hp⟩

theorem wf_foldr_lor {l : List Nat} (h : ∀ g ∈ l, WF g) :
    WF (l.foldr (fun a b => a ||| b) 0) := by
  induction l with
  | nil =>
    simp only [List.foldr_nil]
    simp [WF]
  | cons a l ih =>
    exact wf_lor (h a (List.mem_cons_self a l)) (ih fun g hg => h g (List.mem_cons_of_mem a hg))

/-- Main induction for the group iterator: every extracted group is a
non-empty connected component, groups are pairwise disjoint, and they
cover the input. -/
theorem groupsAux_spec :
    ∀ fuel x, WF x → (toF x).card < fuel →
      (∀ g ∈ groupsAux fuel x,
        g ≠ 0 ∧ WF g ∧ (∀ p, memB p g → memB p x) ∧ ConnB g ∧ ClosedIn x g) ∧
      List.Pairwise (fun a b => ∀ p, ¬(memB p a ∧ memB p b)) (groupsAux fuel x) ∧
      (∀ p, memB p x ↔ ∃ g ∈ groupsAux fuel x, memB p g) := by
  intro fuel
  induction fuel with
  | zero => exact fun x _ hlt => absurd hlt (Nat.not_lt_zero _)
  | succ n ih =>
    intro x hx hlt
    by_cases h0 : x = 0
    · subst h0
      refine ⟨?_, ?_, ?_⟩
      · simp [groupsAux]
      · simp [groupsAux]
      · simp [groupsAux, memB_zero]
    · have hfc := memB_firstCellPos hx h0
      set c := firstCellPos x with hc
      set g := floodFill (firstCellBoard x) x with hg
      have hchar : ∀ q, memB q g ↔ ReachIn x c q := fun q => mem_firstGroup hx h0
      have hgsub : ∀ p, memB p g → memB p x := fun p hp =>
        reachIn_mem hfc ((hchar p).1 hp)
      have hwfg : WF g := wf_floodFill hx
      have hcg : memB c g := (hchar c).2 Relation.ReflTransGen.refl
      have hgne : g ≠ 0 := by
        intro hcontra
        rw [hcontra] at hcg
        exact memB_zero hcg
      set x2 := andNot x g with hx2
      have hx2mem : ∀ p, memB p x2 ↔ memB p x ∧ ¬ memB p g := fun p => memB_andNot
      have hwfx2 : WF x2 := wf_andNot hx
      have hx2card : (toF x2).card < n := by
        have hsub : toF x2 ⊆ (toF x).erase c := by
          intro p hp
          rw [mem_toF, hx2mem] at hp
          rw [Finset.mem_erase]
          refine ⟨?_, mem_toF.2 hp.1⟩
          intro hpc
          subst hpc
          exact hp.2 hcg
        have h1 : (toF x2).card ≤ ((toF x).erase c).card := Finset.card_le_card hsub
        have h2 : ((toF x).erase c).card = (toF x).card - 1 :=
          Finset.card_erase_of_mem (mem_toF.2 hfc)
        have h3 : 0 < (toF x).card := Finset.card_pos.2 ⟨_, mem_toF.2 hfc⟩
        omega
      obtain ⟨ihall, ihpw, ihcover⟩ := ih x2 hwfx2 hx2card
      have hlift : ∀ h ∈ groupsAux n x2,
          h ≠ 0 ∧ WF h ∧ (∀ p, memB p h → memB p x) ∧ ConnB h ∧ ClosedIn x h := by
        intro h hh
        obtain ⟨hne, hwf, hsub, hconn, hclosed⟩ := ihall h hh
        have hsubx : ∀ p, memB p h → memB p x := fun p hp => ((hx2mem p).1 (hsub p hp)).1
        refine ⟨hne, hwf, hsubx, hconn, ?_⟩
        intro p q hp hadj hq
        by_cases hqg : memB q g
        · exfalso
          have hpg : memB p g := firstGroup_closed hchar q p hqg (adjacent_symm hadj)
            (hsubx p hp)
          exact ((hx2mem p).1 (hsub p hp)).2 hpg
        · exact hclosed p q hp hadj ((hx2mem q).2 ⟨hq, hqg⟩)
      have hstep : groupsAux (n + 1) x = g :: groupsAux n x2 := by
        rw [hx2, hg]
        simp only [groupsAux, h0, if_false]
      refine ⟨?_, ?_, ?_⟩
      · rw [hstep]
        rintro g2 hg2
        rcases List.mem_cons.1 hg2 with rfl | hmem
        · exact ⟨hgne, hwfg, hgsub, firstGroup_conn hchar, firstGroup_closed hchar⟩
        · exact hlift g2 hmem
      · rw [hstep]
        refine List.Pairwise.cons ?_ ihpw
        intro h hh p ⟨hpg, hph⟩
        obtain ⟨-, -, hsub, -, -⟩ := ihall h hh
        exact ((hx2mem p).1 (hsub p hph)).2 hpg
      · rw [hstep]
        intro p
        constructor
        · intro hp
          by_cases hpg : memB p g
          · exact ⟨g, List.mem_cons_self _ _, hpg⟩
          · obtain ⟨g2, hg2, hpg2⟩ := (ihcover p).1 ((hx2mem p).2 ⟨hp, hpg⟩)
            exact ⟨g2, List.mem_cons_of_mem _ hg2, hpg2⟩
        · rintro ⟨g2, hg2, hpg2⟩
          rcases List.mem_cons.1 hg2 with rfl | hmem
          · exact hgsub p hpg2
          · exact ((hx2mem p).1 ((ihall g2 hmem).2.2.1 p hpg2)).1

/-! ### Zero-intersection and board-level helper lemmas -/

theorem land_eq_zero_of_forall {x y : Nat} (hxy : WF (x &&& y))
    (h : ∀ p, ¬(memB p x ∧ memB p y)) : x &&& y = 0 := by
  apply bb_ext hxy (by simp [WF])
  intro p
  constructor
  · intro hp
    exact absurd (memB_land.1 hp) (h p)
  · intro hp
    exact absurd hp memB_zero

theorem land_eq_zero_iff {x y : Nat} (hx : WF x) :
    x &&& y = 0 ↔ ∀ p, ¬(memB p x ∧ memB p y) := by
  constructor
  · intro h0 p hp
    have hm : memB p (x &&& y) := memB_land.2 hp
    rw [h0] at hm
    exact memB_zero hm
  · exact land_eq_zero_of_forall (wf_land_left hx)

theorem singleton_land_eq_zero {p : Pos} {x : Nat} :
    singletonBB p &&& x = 0 ↔ ¬ memB p x := by
  rw [Nat.land_comm]
  constructor
  · intro h0 hm
    exact (isSet_iff_memB (x := x) (p := p)).2 hm h0
  · intro hm
    by_contra hne
    exact hm (isSet_iff_memB.1 hne)

theorem memB_xor {p : Pos} {x y : Nat} :
    memB p (x ^^^ y) ↔ ¬ (memB p x ↔ memB p y) := by
  simp only [memB, Nat.testBit_xor]
  cases h1 : Nat.testBit x (bitOf p) <;> cases h2 : Nat.testBit y (bitOf p) <;> simp

theorem memB_empty_cells {b : GoBoard} {p : Pos} :
    memB p b.empty_cells ↔ (memB p b.white ↔ memB p b.black) := by
  simp only [GoBoard.empty_cells, memB_notB, memB_xor, not_not]

theorem adjacent_irrefl (p : Pos) : ¬ Adjacent p p := by
  rintro (⟨-, h⟩ | ⟨-, h⟩) <;> omega

theorem memB_immExt_singleton {p q : Pos} :
    memB q (immediateExterior (singletonBB p)) ↔ Adjacent q p := by
  simp only [immediateExterior, andNot, memB_land, memB_notB,
    memB_expandOne wf_singletonBB, memB_singletonBB]
  constructor
  · rintro ⟨rfl | ⟨w, hadj, rfl⟩, hne⟩
    · exact absurd rfl hne
    · exact hadj
  · intro hadj
    refine ⟨Or.inr ⟨p, hadj, rfl⟩, ?_⟩
    intro he
    exact adjacent_irrefl p (he ▸ hadj)

theorem wf_stones {b : GoBoard} (hwf : b.WFB) (pl : GoPlayer) :
    WF (b.get_bitboard_for_player pl) := by
  cases pl
  · exact wf_land_left hwf.2
  · exact wf_land_left hwf.1

theorem wf_empty_cells {b : GoBoard} (hwf : b.WFB) : WF b.empty_cells :=
  wf_notB (Nat.xor_lt_two_pow hwf.1 hwf.2)

theorem wf_oob {b : GoBoard} (hwf : b.WFB) : WF b.out_of_bounds := wf_land_left hwf.1

theorem stones_not_empty_cells {b : GoBoard} {pl : GoPlayer} {p : Pos}
    (h : memB p (b.get_bitboard_for_player pl)) : ¬ memB p b.empty_cells := by
  intro hem
  rw [memB_empty_cells] at hem
  cases pl <;>
    simp only [GoBoard.get_bitboard_for_player, memB_land, memB_notB] at h <;> tauto

theorem get_cell_empty_iff {b : GoBoard} {p : Pos} :
    b.get_cell p = .Empty ↔ ¬ memB p b.white ∧ ¬ memB p b.black := by
  simp only [GoBoard.get_cell, GoBoard.out_of_bounds]
  by_cases h1 : memB p b.white <;> by_cases h2 : memB p b.black <;>
    simp [singleton_land_eq_zero, memB_land, h1, h2]

/-- C2: in the double-pass ending the winner is determined by whether the
defender still has stones: the player wins exactly when the player is the
defender and the defender has a stone, or the player is the attacker and
the defender has none. -/
theorem is_terminal_passed_twice (g : GoGame) (player attacker : GoPlayer)
    (h : g.pass_state = .PassedTwice) :
    is_terminal g player attacker =
      some (decide ((player = attacker.flip ∧
          ¬ g.board.get_bitboard_for_player attacker.flip = 0) ∨
        (player = attacker ∧ g.board.get_bitboard_for_player attacker.flip = 0))) := by
  simp only [is_terminal, h, if_true, reduceIte]
  congr 1
  by_cases hs : g.board.get_bitboard_for_player attacker.flip = 0 <;>
    cases player <;> cases attacker <;> simp [GoPlayer.flip, hs]

/-- Witness for C2 at a concrete double-pass position. -/
theorem is_terminal_passed_twice_witness :
    is_terminal finishedGame GoPlayer.Black GoPlayer.Black =
      some (decide ((GoPlayer.Black = GoPlayer.Black.flip ∧
          ¬ finishedGame.board.get_bitboard_for_player GoPlayer.Black.flip = 0) ∨
        (GoPlayer.Black = GoPlayer.Black ∧
          finishedGame.board.get_bitboard_for_player GoPlayer.Black.flip = 0))) :=
  is_terminal_passed_twice finishedGame GoPlayer.Black GoPlayer.Black rfl

theorem puzzle_is_defender_dead_eq : Puzzle.is_defender_dead = is_defender_dead := rfl

/-- C10 amended: the proof-number-search terminal test agrees with the
negamax terminal oracle on every position that is not a double-pass
ending; in the double-pass case the two differ in general. -/
theorem puzzle_terminal_agrees_before_double_pass (g : GoGame)
    (player attacker : GoPlayer) (h : ¬ g.pass_state = .PassedTwice) :
    Puzzle.is_terminal g player attacker = is_terminal g player attacker := by
  simp only [Puzzle.is_terminal, is_terminal, h, if_false, puzzle_is_defender_dead_eq]

/-- Witness for the amended C10 at a concrete non-terminal position. -/
theorem puzzle_terminal_agrees_witness :
    Puzzle.is_terminal openRegionGame GoPlayer.Black GoPlayer.Black =
      is_terminal openRegionGame GoPlayer.Black GoPlayer.Black :=
  puzzle_terminal_agrees_before_double_pass openRegionGame GoPlayer.Black GoPlayer.Black
    (by decide)

/-- Counterexample to C10 as stated: on a double-pass ending the two
terminal tests disagree.  Here the defender has no stones, so the negamax
oracle scores a win for the player as attacker, while the
proof-number-search test scores by whose turn it is. -/
theorem puzzle_terminal_double_pass_counterexample :
    Puzzle.is_terminal finishedGameWhite GoPlayer.Black GoPlayer.Black = some false ∧
    is_terminal finishedGameWhite GoPlayer.Black GoPlayer.Black = some true ∧
    ¬ Puzzle.is_terminal finishedGameWhite GoPlayer.Black GoPlayer.Black =
      is_terminal finishedGameWhite GoPlayer.Black GoPlayer.Black := by
  decide

/-- C1 amended: when the terminal oracle reaches the dead-shape step, it
returns a win for the attacker exactly when the interior of the maximum
living shape has fewer than two cells; the source does not require the two
interior cells to be non-adjacent. -/
theorem is_terminal_dead_shape (g : GoGame) (player attacker : GoPlayer)
    (h1 : ¬ g.pass_state = .PassedTwice)
    (h2 : g.board.unconditionally_alive_blocks_for_player attacker.flip = 0) :
    is_terminal g player attacker =
      (if countBB (interior (notB (floodFill (expandOne g.board.out_of_bounds)
            (g.board.get_bitboard_for_player attacker)) &&&
            notB g.board.out_of_bounds)) < 2
       then some (decide (attacker = player)) else none) := by
  simp only [is_terminal, h1, h2, if_false, not_true, reduceIte, is_defender_dead]
  by_cases hc : countBB (interior (notB (floodFill (expandOne g.board.out_of_bounds)
      (g.board.get_bitboard_for_player attacker)) &&& notB g.board.out_of_bounds)) < 2 <;>
    simp [hc]

/-- Witness for the amended C1: at the open rectangle the interior of the
maximum living shape has exactly two cells, so the oracle does not call
the position terminal. -/
theorem is_terminal_dead_shape_witness :
    is_terminal openRegionGame GoPlayer.Black GoPlayer.Black =
      (if countBB (interior (notB (floodFill (expandOne openRegionGame.board.out_of_bounds)
            (openRegionGame.board.get_bitboard_for_player GoPlayer.Black)) &&&
            notB openRegionGame.board.out_of_bounds)) < 2
       then some (decide (GoPlayer.Black = GoPlayer.Black)) else none) :=
  is_terminal_dead_shape openRegionGame GoPlayer.Black GoPlayer.Black (by decide) (by decide)

/-- Counterexample to C1 as stated: a position reaching the dead-shape step
whose maximum living shape has an interior of exactly two adjacent cells.
The claim calls the defender dead there, yet the oracle returns none. -/
theorem is_terminal_dead_shape_counterexample :
    ¬ openRegionGame.pass_state = PassState.PassedTwice ∧
    openRegionGame.board.unconditionally_alive_blocks_for_player GoPlayer.Black.flip = 0 ∧
    ¬ (countBB (interior (notB (floodFill (expandOne openRegionGame.board.out_of_bounds)
          (openRegionGame.board.get_bitboard_for_player GoPlayer.Black)) &&&
          notB openRegionGame.board.out_of_bounds)) ≥ 3 ∨
        (countBB (interior (notB (floodFill (expandOne openRegionGame.board.out_of_bounds)
          (openRegionGame.board.get_bitboard_for_player GoPlayer.Black)) &&&
          notB openRegionGame.board.out_of_bounds)) = 2 ∧
         ¬ singletonsBB (interior (notB (floodFill (expandOne openRegionGame.board.out_of_bounds)
          (openRegionGame.board.get_bitboard_for_player GoPlayer.Black)) &&&
          notB openRegionGame.board.out_of_bounds)) = 0)) ∧
    is_terminal openRegionGame GoPlayer.Black GoPlayer.Black = none := by
  decide

/-! ### C9: the group iterator partitions a bitboard into components -/

/-- C9: the groups yielded for a bitboard are non-empty, pairwise disjoint,
each is a maximal 4-connected subset of the input, and their union is the
input. -/
theorem groups_partition (x : Nat) (hx : WF x) :
    (∀ g ∈ groups x, ¬ g = 0) ∧
    List.Pairwise (fun a b => a &&& b = 0) (groups x) ∧
    (∀ g ∈ groups x,
      (∀ p, memB p g → memB p x) ∧ ConnB g ∧
      (∀ t : Nat, (∀ p, memB p t → memB p x) → ConnB t →
        (∀ p, memB p g → memB p t) → ∀ p, memB p t → memB p g)) ∧
    (groups x).foldr (fun a b => a ||| b) 0 = x := by
  have hcard : (toF x).card < 129 := by
    have := card_toF_le x
    omega
  obtain ⟨hall, hpw, hcover⟩ := groupsAux_spec 129 x hx hcard
  refine ⟨?_, ?_, ?_, ?_⟩
  · exact fun g hg => (hall g hg).1
  · refine List.Pairwise.imp_of_mem ?_ hpw
    intro a b ha hb hdisj
    exact land_eq_zero_of_forall (wf_land_left (hall a ha).2.1) hdisj
  · intro g hg
    obtain ⟨hne, hwf, hsub, hconn, hclosed⟩ := hall g hg
    refine ⟨hsub, hconn, ?_⟩
    intro t htx htconn hgt
    exact maximal_of_closed hsub hclosed (memB_firstCellPos hwf hne) htx htconn hgt
  · apply bb_ext (wf_foldr_lor (fun g hg => (hall g hg).2.1)) hx
    intro p
    rw [memB_foldr_lor]
    exact (hcover p).symm

/-- Witness for C9 at the concrete four-group test board. -/
theorem groups_partition_witness :
    (∀ g ∈ groups groupsDemoBoard, ¬ g = 0) ∧
    List.Pairwise (fun a b => a &&& b = 0) (groups groupsDemoBoard) ∧
    (∀ g ∈ groups groupsDemoBoard,
      (∀ p, memB p g → memB p groupsDemoBoard) ∧ ConnB g ∧
      (∀ t : Nat, (∀ p, memB p t → memB p groupsDemoBoard) → ConnB t →
        (∀ p, memB p g → memB p t) → ∀ p, memB p t → memB p g)) ∧
    (groups groupsDemoBoard).foldr (fun a b => a ||| b) 0 = groupsDemoBoard :=
  groups_partition groupsDemoBoard (by decide)

/-! ### C6: move generation -/

/-- C6 amended: on an unfinished game move generation succeeds, yields
exactly the successful placements over the in-bounds empty cells, and
appends one pass successor; the placing list holds a pair exactly when
place_stone succeeds there. -/
theorem generate_moves_spec (g : GoGame) (hwf : g.WFG)
    (h : ¬ g.pass_state = .PassedTwice) :
    ∃ pg, g.passMove = some pg ∧
      g.generate_moves = some (g.generate_placing_moves ++ [(pg, .Pass)]) ∧
      ∀ p g2, ((g2, GoMove.Place p) ∈ g.generate_placing_moves ↔
        g.place_stone p = .ok g2) := by
  obtain ⟨pg, hpg⟩ : ∃ pg, g.passMove = some pg := by
    cases hps : g.pass_state with
    | NoPass =>
      exact ⟨⟨0, g.board, g.current_player.flip, .PassedOnce⟩,
        by simp [GoGame.passMove, hps]⟩
    | PassedOnce =>
      exact ⟨⟨0, g.board, g.current_player.flip, .PassedTwice⟩,
        by simp [GoGame.passMove, hps]⟩
    | PassedTwice => exact absurd hps h
  refine ⟨pg, hpg, ?_, ?_⟩
  · simp [GoGame.generate_moves, hpg]
  · intro p g2
    constructor
    · intro hmem
      simp only [GoGame.generate_placing_moves, List.mem_filterMap] at hmem
      obtain ⟨q, hq, hfq⟩ := hmem
      cases hpq : g.place_stone q with
      | ok game =>
        rw [hpq] at hfq
        simp only [Option.some.injEq, Prod.mk.injEq, GoMove.Place.injEq] at hfq
        obtain ⟨hgame, hqp⟩ := hfq
        subst hqp
        rw [hpq, hgame]
      | error e =>
        rw [hpq] at hfq
        simp at hfq
    · intro hok
      simp only [GoGame.generate_placing_moves, List.mem_filterMap]
      refine ⟨p, ?_, by rw [hok]⟩
      rw [mem_positions (wf_notB (wf_lor hwf.1.1 hwf.1.2))]
      rw [memB_notB, memB_lor]
      have hcell : g.board.get_cell p = .Empty := by
        by_contra hc
        simp [GoGame.place_stone, hc] at hok
      have := get_cell_empty_iff.1 hcell
      tauto

/-- Witness for the amended C6 at the open rectangle position. -/
theorem generate_moves_spec_witness :
    ∃ pg, openRegionGame.passMove = some pg ∧
      openRegionGame.generate_moves =
        some (openRegionGame.generate_placing_moves ++ [(pg, .Pass)]) ∧
      ∀ p g2, ((g2, GoMove.Place p) ∈ openRegionGame.generate_placing_moves ↔
        openRegionGame.place_stone p = .ok g2) :=
  generate_moves_spec openRegionGame (by decide) (by decide)

/-- Counterexample to C6 as stated: on a finished game generate_moves does
fail, because the unconditional pass push panics. -/
theorem generate_moves_finished_counterexample :
    finishedGame.pass_state = PassState.PassedTwice ∧
    finishedGame.generate_moves = none := by
  decide

/-! ### C5: the single-point ko rule -/

/-- C5: after a successful placement that touches no friendly stone, the
ko-forbidden cells of the next game are the singleton captures of the
move; after a placement touching a friendly stone they are empty. -/
theorem place_stone_ko_spec (g : GoGame) (p : Pos) (g2 : GoGame) (hwf : g.WFG)
    (hok : g.place_stone p = .ok g2) :
    ((∀ q, Adjacent p q → ¬ memB q (g.board.get_bitboard_for_player g.current_player)) →
      g2.ko_violations =
        singletonsBB (g.board.get_bitboard_for_player g.current_player.flip &&&
          notB (g2.board.get_bitboard_for_player g.current_player.flip))) ∧
    ((∃ q, Adjacent p q ∧ memB q (g.board.get_bitboard_for_player g.current_player)) →
      g2.ko_violations = 0) := by
  simp only [GoGame.place_stone] at hok
  split at hok
  · simp at hok
  split at hok
  · simp at hok
  split at hok
  · simp at hok
  split at hok
  · simp at hok
  rw [Except.ok.injEq] at hok
  subst hok
  constructor
  · intro hnone
    have hcond : immediateExterior (singletonBB p) &&&
        g.board.get_bitboard_for_player g.current_player = 0 := by
      apply land_eq_zero_of_forall (wf_land_right (wf_stones hwf.1 _))
      rintro q ⟨hq1, hq2⟩
      exact hnone q (adjacent_symm (memB_immExt_singleton.1 hq1)) hq2
    simp only [hcond, if_true, reduceIte]
  · rintro ⟨q, hadj, hq⟩
    have hcond : ¬ (immediateExterior (singletonBB p) &&&
        g.board.get_bitboard_for_player g.current_player = 0) := by
      intro h0
      have hm : memB q (immediateExterior (singletonBB p) &&&
          g.board.get_bitboard_for_player g.current_player) :=
        memB_land.2 ⟨memB_immExt_singleton.2 (adjacent_symm hadj), hq⟩
      rw [h0] at hm
      exact memB_zero hm
    simp only [hcond, if_false, reduceIte]

/-- Witness for C5: capturing a lone white corner stone with an isolated
black play marks exactly that cell as ko-forbidden. -/
theorem place_stone_ko_spec_witness :
    koNextGame.ko_violations =
      singletonsBB (koGame.board.get_bitboard_for_player koGame.current_player.flip &&&
        notB (koNextGame.board.get_bitboard_for_player koGame.current_player.flip)) :=
  (place_stone_ko_spec koGame (1, 0) koNextGame (by decide) (by decide)).1 (by decide)

/-! ### C4: group liberties -/

theorem floodFill_subset_mask {s m : Nat} : ∀ p, memB p (floodFill s m) → memB p m :=
  floodFillAux_subset_mask (fun q hq => (memB_land.1 hq).2)

theorem get_bitboard_at_position_cases {b : GoBoard} {p : Pos} {mask : Nat}
    (hm : b.get_bitboard_at_position p = some mask) :
    (mask = b.get_bitboard_for_player .White ∨ mask = b.get_bitboard_for_player .Black) ∧
      memB p mask := by
  simp only [GoBoard.get_bitboard_at_position] at hm
  split at hm
  · rename_i hcond
    rw [Option.some.injEq] at hm
    subst hm
    refine ⟨Or.inl rfl, ?_⟩
    by_contra hmem
    exact hcond (singleton_land_eq_zero.2 hmem)
  split at hm
  · rename_i hcond
    rw [Option.some.injEq] at hm
    subst hm
    refine ⟨Or.inr rfl, ?_⟩
    by_contra hmem
    exact hcond (singleton_land_eq_zero.2 hmem)
  · simp at hm

/-- C4 amended: for a position holding a stone, group_has_liberties is true
exactly when some cell next to the maximal same-colour group is in
empty_cells, a set that includes the out-of-bounds cells. -/
theorem group_has_liberties_spec (b : GoBoard) (p : Pos) (mask : Nat) (hwf : b.WFB)
    (hm : b.get_bitboard_at_position p = some mask) :
    (b.group_has_liberties p = some true ↔
      ∃ q, memB q (immediateExterior (floodFill (singletonBB p) mask)) ∧
        memB q b.empty_cells) := by
  have hmaskwf : WF mask := by
    rcases (get_bitboard_at_position_cases hm).1 with rfl | rfl
    · exact wf_stones hwf _
    · exact wf_stones hwf _
  have hmaskstones : ∀ q, memB q mask → ¬ memB q b.empty_cells := by
    rcases (get_bitboard_at_position_cases hm).1 with rfl | rfl
    · exact fun q hq => stones_not_empty_cells hq
    · exact fun q hq => stones_not_empty_cells hq
  rw [GoBoard.group_has_liberties, hm]
  simp only [Option.map_some', Option.some.injEq, decide_eq_true_eq]
  constructor
  · intro hne
    have hnot : ¬ ∀ q, ¬ (memB q (expandOne (floodFill (singletonBB p) mask)) ∧
        memB q b.empty_cells) := by
      intro hall
      exact hne (land_eq_zero_of_forall
        (wf_land_left (wf_expandOne (wf_floodFill hmaskwf))) hall)
    push_neg at hnot
    obtain ⟨q, hq1, hq2⟩ := hnot
    refine ⟨q, ?_, hq2⟩
    rw [immediateExterior, memB_andNot]
    exact ⟨hq1, fun hg => hmaskstones q (floodFill_subset_mask q hg) hq2⟩
  · rintro ⟨q, hq1, hq2⟩
    intro h0
    rw [immediateExterior, memB_andNot] at hq1
    have hm2 : memB q (expandOne (floodFill (singletonBB p) mask) &&& b.empty_cells) :=
      memB_land.2 ⟨hq1.1, hq2⟩
    rw [h0] at hm2
    exact memB_zero hm2

/-- Witness for the amended C4: the lone white corner stone of the capture
board has a liberty through its empty side neighbour. -/
theorem group_has_liberties_spec_witness :
    koBoard.group_has_liberties (0, 0) = some true ↔
      ∃ q, memB q (immediateExterior (floodFill (singletonBB (0, 0))
        (koBoard.get_bitboard_for_player .White))) ∧ memB q koBoard.empty_cells :=
  group_has_liberties_spec koBoard (0, 0) (koBoard.get_bitboard_for_player .White)
    (by decide) (by decide)

/-- Counterexample to C4 as stated: a black corner stone whose only
neighbours are out of bounds is reported as having liberties, although no
immediate-exterior cell of its group is empty and in-bounds. -/
theorem group_has_liberties_oob_counterexample :
    cornerBoard.group_has_liberties (0, 0) = some true ∧
    ¬ ∃ q, memB q (immediateExterior (floodFill (singletonBB (0, 0))
        (cornerBoard.get_bitboard_for_player .Black))) ∧
      memB q cornerBoard.empty_cells ∧ ¬ memB q cornerBoard.out_of_bounds := by
  decide

/-! ### C3: the ancestors set across negamax calls -/

theorem popAbort_parents (st : NState) : (popAbort st).2.parents = st.parents := by
  obtain ⟨ps, ab⟩ := st
  cases ab <;> rfl

theorem insertParent_erase {g : GoGame} {l : List GoGame} (h : ¬ g ∈ l) :
    (insertParent g l).erase g = l := by
  rw [insertParent, if_neg h]
  exact List.erase_cons_head g l

theorem negamaxChildren_restore
    (rec : GoGame → Int → Int → Int → NState → Option Int × NState)
    (hrec : ∀ g a b c st r st2, rec g a b c st = (some r, st2) →
      st2.parents = st.parents) :
    ∀ l alpha beta color m st r st2,
      negamaxChildren rec l alpha beta color m st = (some r, st2) →
      st2.parents = st.parents := by
  intro l
  induction l with
  | nil =>
    intro alpha beta color m st r st2 h
    simp only [negamaxChildren, Prod.mk.injEq] at h
    rw [← h.2]
  | cons head rest ih =>
    obtain ⟨child, mv⟩ := head
    intro alpha beta color m st r st2 h
    simp only [negamaxChildren] at h
    by_cases hmem : child ∈ st.parents
    · rw [if_pos hmem] at h
      exact ih _ _ _ _ _ _ _ h
    · rw [if_neg hmem] at h
      split at h
      · rename_i st3 heq
        simp at h
      · rename_i t0 st3 heq
        have hpar : st3.parents = insertParent child st.parents :=
          hrec _ _ _ _ _ _ _ heq
        split at h
        all_goals split at h
        all_goals first
          | (rw [Prod.mk.injEq] at h
             rw [← h.2]
             show st3.parents.erase child = st.parents
             rw [hpar, insertParent_erase hmem])
          | (have hrest := ih _ _ _ _ _ _ _ h
             rw [hrest]
             show st3.parents.erase child = st.parents
             rw [hpar, insertParent_erase hmem])

theorem negamaxBody_restore (player attacker : GoPlayer)
    (deeper : Option (GoGame → Int → Int → Int → NState → Option Int × NState))
    (hdeeper : ∀ rec, deeper = some rec →
      ∀ g a b c st r st2, rec g a b c st = (some r, st2) → st2.parents = st.parents) :
    ∀ node alpha beta color st r st2,
      negamaxBody player attacker deeper node alpha beta color st = (some r, st2) →
      st2.parents = st.parents := by
  intro node alpha beta color st r st2 h
  simp only [negamaxBody] at h
  split at h
  · simp at h
  · split at h
    · rw [Prod.mk.injEq] at h
      rw [← h.2]
      exact popAbort_parents st
    · split at h
      · rw [Prod.mk.injEq] at h
        rw [← h.2]
        exact popAbort_parents st
      · rename_i rec
        have := negamaxChildren_restore rec (hdeeper rec rfl) _ _ _ _ _ _ _ _ h
        rw [this]
        exact popAbort_parents st

/-- C3 amended: whenever negamax completes and returns a value, the
ancestors set is exactly what it was on entry: every child inserted along
the way has been removed again.  On the abort path this does not hold: the
question mark operator skips the removals, as the counterexample shows. -/
theorem negamax_restores_parents (player attacker : GoPlayer) :
    ∀ fuel node alpha beta color st r st2,
      negamax player attacker fuel node alpha beta color st = (some r, st2) →
      st2.parents = st.parents := by
  intro fuel
  induction fuel with
  | zero =>
    intro node alpha beta color st r st2 h
    exact negamaxBody_restore player attacker none (by intro rec hrec; cases hrec)
      _ _ _ _ _ _ _ h
  | succ fuel2 ih =>
    intro node alpha beta color st r st2 h
    refine negamaxBody_restore player attacker (some (negamax player attacker fuel2))
      ?_ _ _ _ _ _ _ _ h
    intro rec hrec
    rw [Option.some.injEq] at hrec
    subst hrec
    exact ih

/-- Witness for the amended C3: a completed depth-one search over the open
rectangle returns a value and hands back an empty ancestors set. -/
theorem negamax_restores_parents_witness :
    ((⟨[], []⟩ : NState)).parents = ((⟨[], [false]⟩ : NState)).parents :=
  negamax_restores_parents GoPlayer.Black GoPlayer.Black 1 openRegionGame (-1) 1 1
    ⟨[], [false]⟩ 1 ⟨[], []⟩ (by decide)

/-- Counterexample to C3 as stated: when the abort controller fires inside
a child call, negamax returns none and the child inserted by the parent
frame is still in the ancestors set, because the early return skips the
removal. -/
theorem negamax_abort_counterexample :
    (negamax GoPlayer.Black GoPlayer.Black 1 openRegionGame (-1) 1 1
      ⟨[], [false, true]⟩).1 = none ∧
    ¬ (negamax GoPlayer.Black GoPlayer.Black 1 openRegionGame (-1) 1 1
      ⟨[], [false, true]⟩).2.parents = (⟨[], [false, true]⟩ : NState).parents := by
  decide

/-! ### C7: the triangle and the out-of-bounds set -/

theorem setupNode_append :
    ∀ (l1 l2 : List SgfToken) (b : GoBoard) (tri : Option Pos),
      setupNode b tri (l1 ++ l2) =
        (setupNode b tri l1).bind (fun s => setupNode s.1 s.2 l2) := by
  intro l1
  induction l1 with
  | nil => intro l2 b tri; rfl
  | cons token rest ih =>
    intro l2 b tri
    cases token with
    | Add color coordinate =>
      simp only [List.cons_append, setupNode]
      exact ih l2 _ tri
    | Triangle coordinate =>
      simp only [List.cons_append, setupNode]
      exact ih l2 b (some coordinate)
    | MoveTok color coordinate =>
      simp only [List.cons_append, setupNode, Option.none_bind]
    | Other =>
      simp only [List.cons_append, setupNode]
      exact ih l2 b tri

theorem setupNode_pairs :
    ∀ (adds : List (GoPlayer × Pos)) (b : GoBoard) (tri : Option Pos),
      setupNode b tri (adds.map (fun e => SgfToken.Add e.1 e.2)) =
        some (adds.foldl (fun bb e => bb.set_cell e.2 (.Occupied e.1)) b, tri) := by
  intro adds
  induction adds with
  | nil => intro b tri; rfl
  | cons e rest ih =>
    intro b tri
    simp only [List.map_cons, List.foldl_cons, setupNode, ih]

theorem wfb_empty : GoBoard.empty.WFB := by
  constructor <;> · show WF 0; simp [WF]

theorem wfb_set_cell {b : GoBoard} (hwf : b.WFB) (q : Pos) (cell : BoardCell) :
    (b.set_cell q cell).WFB := by
  cases cell with
  | Empty => exact ⟨wf_land_left hwf.1, wf_land_left hwf.2⟩
  | OutOfBounds => exact ⟨wf_lor hwf.1 wf_singletonBB, wf_lor hwf.2 wf_singletonBB⟩
  | Occupied player =>
    cases player with
    | Black => exact ⟨wf_land_left hwf.1, wf_lor hwf.2 wf_singletonBB⟩
    | White => exact ⟨wf_lor hwf.1 wf_singletonBB, wf_land_left hwf.2⟩

theorem wfb_foldl_set :
    ∀ (adds : List (GoPlayer × Pos)) (b : GoBoard), b.WFB →
      (adds.foldl (fun bb e => bb.set_cell e.2 (.Occupied e.1)) b).WFB := by
  intro adds
  induction adds with
  | nil => exact fun b h => h
  | cons e rest ih =>
    intro b hwf
    exact ih _ (wfb_set_cell hwf e.2 (.Occupied e.1))

theorem oob_set_out_of_bounds {b : GoBoard} (hwf : b.WFB) {o2 : Nat} (ho : WF o2) :
    (b.set_out_of_bounds o2).out_of_bounds = o2 := by
  apply bb_ext (wf_land_left (wf_lor (wf_land_left hwf.1) ho)) ho
  intro p
  simp only [GoBoard.set_out_of_bounds, GoBoard.out_of_bounds, memB_land, memB_lor,
    memB_notB]
  tauto

theorem mem_floodFill_singleton {t : Pos} {m : Nat} (hm : WF m) {q : Pos} :
    memB q (floodFill (singletonBB t) m) ↔ memB t m ∧ ReachIn m t q := by
  rw [mem_floodFill hm]
  constructor
  · rintro ⟨p, hp1, hp2, hr⟩
    rw [memB_singletonBB] at hp1
    subst hp1
    exact ⟨hp2, hr⟩
  · rintro ⟨h1, h2⟩
    exact ⟨t, memB_singletonBB.2 rfl, h1, h2⟩

/-- C7 amended: for a setup node of add tokens followed by one triangle,
from_sgf succeeds and the out-of-bounds set of the produced board is the
flood fill of the triangle cell through the empty cells of the setup — the
out-of-bounds region itself, not its complement: the triangle marks a cell
of the out-of-bounds region. -/
theorem from_sgf_oob_spec (adds : List (GoPlayer × Pos)) (t : Pos) :
    ∃ g, from_sgf [adds.map (fun e => SgfToken.Add e.1 e.2) ++ [SgfToken.Triangle t]] =
        some g ∧
      (g.board.out_of_bounds = floodFill (singletonBB t)
        ((adds.foldl (fun bb e => bb.set_cell e.2 (.Occupied e.1))
          GoBoard.empty).empty_cells) ∧
       ∀ p, memB p g.board.out_of_bounds ↔
         (memB t ((adds.foldl (fun bb e => bb.set_cell e.2 (.Occupied e.1))
             GoBoard.empty).empty_cells) ∧
          ReachIn ((adds.foldl (fun bb e => bb.set_cell e.2 (.Occupied e.1))
             GoBoard.empty).empty_cells) t p)) := by
  have hwfb0 : (adds.foldl (fun bb e => bb.set_cell e.2 (.Occupied e.1))
      GoBoard.empty).WFB := wfb_foldl_set adds GoBoard.empty wfb_empty
  have hwfmask : WF ((adds.foldl (fun bb e => bb.set_cell e.2 (.Occupied e.1))
      GoBoard.empty).empty_cells) := wf_empty_cells hwfb0
  have hsetup : setupNode GoBoard.empty none
      (adds.map (fun e => SgfToken.Add e.1 e.2) ++ [SgfToken.Triangle t]) =
      some (adds.foldl (fun bb e => bb.set_cell e.2 (.Occupied e.1)) GoBoard.empty,
        some t) := by
    rw [setupNode_append, setupNode_pairs]
    rfl
  refine ⟨GoGame.from_board
      ((adds.foldl (fun bb e => bb.set_cell e.2 (.Occupied e.1))
        GoBoard.empty).set_out_of_bounds (floodFill (singletonBB t)
          ((adds.foldl (fun bb e => bb.set_cell e.2 (.Occupied e.1))
            GoBoard.empty).empty_cells))) .Black, ?_, ?_, ?_⟩
  · simp only [from_sgf, hsetup, Option.bind_eq_bind, Option.some_bind, List.foldlM_nil]
    rfl
  · exact oob_set_out_of_bounds hwfb0 (wf_floodFill hwfmask)
  · intro p
    rw [show (GoGame.from_board
        ((adds.foldl (fun bb e => bb.set_cell e.2 (.Occupied e.1))
          GoBoard.empty).set_out_of_bounds (floodFill (singletonBB t)
            ((adds.foldl (fun bb e => bb.set_cell e.2 (.Occupied e.1))
              GoBoard.empty).empty_cells))) GoPlayer.Black).board.out_of_bounds =
          floodFill (singletonBB t)
            ((adds.foldl (fun bb e => bb.set_cell e.2 (.Occupied e.1))
              GoBoard.empty).empty_cells)
        from oob_set_out_of_bounds hwfb0 (wf_floodFill hwfmask)]
    exact mem_floodFill_singleton hwfmask

/-- Counterexample to C7 as stated: on a concrete setup the out-of-bounds
set equals the flood fill of the triangle cell through the empty cells,
and differs from the complement of that flood fill demanded by the claim. -/
theorem from_sgf_oob_counterexample :
    (from_sgf [[SgfToken.Add .Black (0, 0), SgfToken.Triangle (5, 5)]]).map
        (fun g => g.board.out_of_bounds) =
      some (floodFill (singletonBB (5, 5))
        ((GoBoard.empty.set_cell (0, 0) (.Occupied .Black)).empty_cells)) ∧
    ¬ (from_sgf [[SgfToken.Add .Black (0, 0), SgfToken.Triangle (5, 5)]]).map
        (fun g => g.board.out_of_bounds) =
      some (notB (floodFill (singletonBB (5, 5))
        ((GoBoard.empty.set_cell (0, 0) (.Occupied .Black)).empty_cells))) := by
  decide

/-! ### C8: the SGF round trip -/

theorem memB_set_cell_black_black {b : GoBoard} {q p : Pos} :
    memB p ((b.set_cell q (.Occupied .Black)).black) ↔ memB p b.black ∨ p = q := by
  simp only [GoBoard.set_cell, memB_lor, memB_singletonBB]

theorem memB_set_cell_black_white {b : GoBoard} {q p : Pos} :
    memB p ((b.set_cell q (.Occupied .Black)).white) ↔ memB p b.white ∧ ¬ p = q := by
  simp only [GoBoard.set_cell, memB_land, memB_notB, memB_singletonBB]

theorem memB_set_cell_white_white {b : GoBoard} {q p : Pos} :
    memB p ((b.set_cell q (.Occupied .White)).white) ↔ memB p b.white ∨ p = q := by
  simp only [GoBoard.set_cell, memB_lor, memB_singletonBB]

theorem memB_set_cell_white_black {b : GoBoard} {q p : Pos} :
    memB p ((b.set_cell q (.Occupied .White)).black) ↔ memB p b.black ∧ ¬ p = q := by
  simp only [GoBoard.set_cell, memB_land, memB_notB, memB_singletonBB]

theorem setCells_fold_black (L : List Pos) :
    ∀ (b : GoBoard) (p : Pos),
      (memB p ((L.foldl (fun bb q => bb.set_cell q (.Occupied .Black)) b).black) ↔
        memB p b.black ∨ p ∈ L) ∧
      (memB p ((L.foldl (fun bb q => bb.set_cell q (.Occupied .Black)) b).white) ↔
        memB p b.white ∧ ¬ p ∈ L) := by
  induction L with
  | nil =>
    intro b p
    simp
  | cons q rest ih =>
    intro b p
    simp only [List.foldl_cons, List.mem_cons]
    constructor
    · rw [(ih _ p).1, memB_set_cell_black_black]
      tauto
    · rw [(ih _ p).2, memB_set_cell_black_white]
      tauto

theorem setCells_fold_white (L : List Pos) :
    ∀ (b : GoBoard) (p : Pos),
      (memB p ((L.foldl (fun bb q => bb.set_cell q (.Occupied .White)) b).white) ↔
        memB p b.white ∨ p ∈ L) ∧
      (memB p ((L.foldl (fun bb q => bb.set_cell q (.Occupied .White)) b).black) ↔
        memB p b.black ∧ ¬ p ∈ L) := by
  induction L with
  | nil =>
    intro b p
    simp
  | cons q rest ih =>
    intro b p
    simp only [List.foldl_cons, List.mem_cons]
    constructor
    · rw [(ih _ p).1, memB_set_cell_white_white]
      tauto
    · rw [(ih _ p).2, memB_set_cell_white_black]
      tauto

theorem setupNode_color_adds (c : GoPlayer) (L : List Pos) :
    ∀ (b : GoBoard) (tri : Option Pos),
      setupNode b tri (L.map (fun p => SgfToken.Add c p)) =
        some (L.foldl (fun bb q => bb.set_cell q (.Occupied c)) b, tri) := by
  induction L with
  | nil => intro b tri; rfl
  | cons q rest ih =>
    intro b tri
    simp only [List.map_cons, List.foldl_cons, setupNode, ih]

theorem wfb_foldl_color (c : GoPlayer) :
    ∀ (L : List Pos) (b : GoBoard), b.WFB →
      (L.foldl (fun bb q => bb.set_cell q (.Occupied c)) b).WFB := by
  intro L
  induction L with
  | nil => exact fun b h => h
  | cons q rest ih =>
    intro b hwf
    exact ih _ (wfb_set_cell hwf q (.Occupied c))

/-- C8: for a board assembled from pairwise disjoint black stones, white
stones and a non-empty connected out-of-bounds region whose immediate
exterior consists of stones, serializing to tokens and parsing back yields
the same board: the flood fill from the triangle representative recovers
the exact out-of-bounds set. -/
theorem sgf_round_trip (b w oob : Nat) (hwb : WF b) (hww : WF w) (hwo : WF oob)
    (hbw : b &&& w = 0) (hbo : b &&& oob = 0) (hwoob : w &&& oob = 0)
    (hne : ¬ oob = 0)
    (hconn : floodFill (firstCellBoard oob) oob = oob)
    (hsep : immediateExterior oob &&& notB (b ||| w) = 0) :
    ∃ tokens g, to_sgf (GoBoard.new b w oob) = some tokens ∧
      from_sgf [tokens] = some g ∧ g.board = GoBoard.new b w oob := by
  have hbw2 : ∀ p, ¬(memB p b ∧ memB p w) := (land_eq_zero_iff hwb).1 hbw
  have hbo2 : ∀ p, ¬(memB p b ∧ memB p oob) := (land_eq_zero_iff hwb).1 hbo
  have hwo2 : ∀ p, ¬(memB p w ∧ memB p oob) := (land_eq_zero_iff hww).1 hwoob
  have hsb : (GoBoard.new b w oob).get_bitboard_for_player .Black = b := by
    apply bb_ext (wf_land_left (wf_lor hwb hwo)) hwb
    intro p
    simp only [GoBoard.new, GoBoard.get_bitboard_for_player, memB_land, memB_lor, memB_notB]
    constructor
    · rintro ⟨hb1 | ho1, hn⟩
      · exact hb1
      · exact absurd (Or.inr ho1) hn
    · intro hb1
      refine ⟨Or.inl hb1, ?_⟩
      rintro (hw1 | ho1)
      · exact hbw2 p ⟨hb1, hw1⟩
      · exact hbo2 p ⟨hb1, ho1⟩
  have hsw : (GoBoard.new b w oob).get_bitboard_for_player .White = w := by
    apply bb_ext (wf_land_left (wf_lor hww hwo)) hww
    intro p
    simp only [GoBoard.new, GoBoard.get_bitboard_for_player, memB_land, memB_lor, memB_notB]
    constructor
    · rintro ⟨hw1 | ho1, hn⟩
      · exact hw1
      · exact absurd (Or.inr ho1) hn
    · intro hw1
      refine ⟨Or.inl hw1, ?_⟩
      rintro (hb1 | ho1)
      · exact hbw2 p ⟨hb1, hw1⟩
      · exact hwo2 p ⟨hw1, ho1⟩
  have hoobB : (GoBoard.new b w oob).out_of_bounds = oob := by
    apply bb_ext (wf_land_left (wf_lor hww hwo)) hwo
    intro p
    simp only [GoBoard.new, GoBoard.out_of_bounds, memB_land, memB_lor]
    constructor
    · rintro ⟨hw1 | ho1, hb1 | ho2⟩
      · exact absurd ⟨hb1, hw1⟩ (hbw2 p)
      · exact ho2
      · exact ho1
      · exact ho1
    · intro ho
      exact ⟨Or.inr ho, Or.inr ho⟩
  have htosgf : to_sgf (GoBoard.new b w oob) = some
      (((positions b).map (fun p => SgfToken.Add .Black p) ++
        ((positions w).map (fun p => SgfToken.Add .White p) ++ [])) ++
        [SgfToken.Triangle (firstCellPos oob)]) := by
    simp only [to_sgf, hsb, hsw, hoobB, List.map_cons, List.map_nil,
      List.flatten_cons, List.flatten_nil, positions_head hne]
  set B1 := (positions b).foldl (fun bb q => bb.set_cell q (.Occupied .Black))
    GoBoard.empty with hB1def
  set B2 := (positions w).foldl (fun bb q => bb.set_cell q (.Occupied .White)) B1
    with hB2def
  have hwfB1 : B1.WFB := wfb_foldl_color .Black _ _ wfb_empty
  have hwfB2 : B2.WFB := wfb_foldl_color .White _ _ hwfB1
  have hsetup : setupNode GoBoard.empty none
      (((positions b).map (fun p => SgfToken.Add .Black p) ++
        ((positions w).map (fun p => SgfToken.Add .White p) ++ [])) ++
        [SgfToken.Triangle (firstCellPos oob)]) =
      some (B2, some (firstCellPos oob)) := by
    simp only [setupNode_append, setupNode_color_adds, Option.some_bind, List.append_nil]
    rfl
  have hB2b : ∀ p, memB p B2.black ↔ memB p b := by
    intro p
    rw [hB2def, (setCells_fold_white _ _ _).2, hB1def, (setCells_fold_black _ _ _).1]
    have h0 : ¬ memB p GoBoard.empty.black := memB_zero
    rw [mem_positions hwb, mem_positions hww]
    constructor
    · rintro ⟨hb1 | hb2, -⟩
      · exact absurd hb1 h0
      · exact hb2
    · intro hb1
      exact ⟨Or.inr hb1, fun hw1 => hbw2 p ⟨hb1, hw1⟩⟩
  have hB2w : ∀ p, memB p B2.white ↔ memB p w := by
    intro p
    rw [hB2def, (setCells_fold_white _ _ _).1, hB1def, (setCells_fold_black _ _ _).2]
    have h0 : ¬ memB p GoBoard.empty.white := memB_zero
    rw [mem_positions hww]
    constructor
    · rintro (⟨hw1, -⟩ | hw2)
      · exact absurd hw1 h0
      · exact hw2
    · exact fun hw1 => Or.inr hw1
  have hmaskmem : ∀ p, memB p B2.empty_cells ↔ (¬ memB p b ∧ ¬ memB p w) := by
    intro p
    rw [memB_empty_cells]
    rw [hB2w p, hB2b p]
    constructor
    · intro hiff
      by_cases hw1 : memB p w
      · exact absurd ⟨hiff.1 hw1, hw1⟩ (hbw2 p)
      · exact ⟨fun hb1 => hw1 (hiff.2 hb1), hw1⟩
    · intro hnn
      constructor
      · intro hw1
        exact absurd hw1 hnn.2
      · intro hb1
        exact absurd hb1 hnn.1
  have hwfmask : WF B2.empty_cells := wf_empty_cells hwfB2
  have hfc : memB (firstCellPos oob) oob := memB_firstCellPos hwo hne
  have hoobmask : ∀ p, memB p oob → memB p B2.empty_cells := fun p hp =>
    (hmaskmem p).2 ⟨fun hb1 => hbo2 p ⟨hb1, hp⟩, fun hw1 => hwo2 p ⟨hw1, hp⟩⟩
  have hclosed : ClosedIn B2.empty_cells oob := by
    intro z y hz hadj hy
    by_contra hyo
    have hyimm : memB y (immediateExterior oob) := by
      rw [immediateExterior, memB_andNot]
      refine ⟨?_, hyo⟩
      rw [memB_expandOne hwo]
      exact Or.inr ⟨z, adjacent_symm hadj, hz⟩
    apply (land_eq_zero_iff (wf_andNot (wf_expandOne hwo))).1 hsep y
    refine ⟨hyimm, ?_⟩
    rw [memB_notB, memB_lor]
    have := (hmaskmem y).1 hy
    tauto
  have hflood : floodFill (singletonBB (firstCellPos oob)) B2.empty_cells = oob := by
    apply bb_ext (wf_floodFill hwfmask) hwo
    intro p
    rw [mem_floodFill_singleton hwfmask]
    constructor
    · rintro ⟨-, h2⟩
      exact reachIn_closed hclosed (fun q hq => hq) h2 hfc
    · intro hp
      refine ⟨hoobmask _ hfc, ?_⟩
      have hp2 : memB p (floodFill (firstCellBoard oob) oob) := by
        rw [hconn]
        exact hp
      rw [firstCellBoard_eq hwo hne, mem_floodFill_singleton hwo] at hp2
      exact reachIn_mono hoobmask hp2.2
  have hwhite : (B2.set_out_of_bounds oob).white = w ||| oob := by
    apply bb_ext (wf_lor (wf_land_left hwfB2.1) hwo) (wf_lor hww hwo)
    intro p
    simp only [GoBoard.set_out_of_bounds, GoBoard.out_of_bounds, memB_lor, memB_land,
      memB_notB]
    rw [hB2w p, hB2b p]
    have := hbw2 p
    tauto
  have hblack : (B2.set_out_of_bounds oob).black = b ||| oob := by
    apply bb_ext (wf_lor (wf_land_left hwfB2.2) hwo) (wf_lor hwb hwo)
    intro p
    simp only [GoBoard.set_out_of_bounds, GoBoard.out_of_bounds, memB_lor, memB_land,
      memB_notB]
    rw [hB2w p, hB2b p]
    have := hbw2 p
    tauto
  have hfinal : B2.set_out_of_bounds oob = GoBoard.new b w oob := by
    show B2.set_out_of_bounds oob = GoBoard.mk (w ||| oob) (b ||| oob)
    rw [← hwhite, ← hblack]
  refine ⟨_, GoGame.from_board (GoBoard.new b w oob) .Black, htosgf, ?_, rfl⟩
  simp only [from_sgf, hsetup, Option.bind_eq_bind, Option.some_bind, List.foldlM_nil]
  rw [hflood, hfinal]
  rfl

/-- Witness for C8: a wall of black stones in column 2 separating the open
columns 0 and 1 from the out-of-bounds columns 3 to 15 round-trips. -/
theorem sgf_round_trip_witness :
    ∃ tokens g, to_sgf (GoBoard.new 0x20002000200020002000200020002000 0
        0x1FFF1FFF1FFF1FFF1FFF1FFF1FFF1FFF) = some tokens ∧
      from_sgf [tokens] = some g ∧
      g.board = GoBoard.new 0x20002000200020002000200020002000 0
        0x1FFF1FFF1FFF1FFF1FFF1FFF1FFF1FFF :=
  sgf_round_trip 0x20002000200020002000200020002000 0
    0x1FFF1FFF1FFF1FFF1FFF1FFF1FFF1FFF (by decide) (by decide) (by decide) (by decide)
    (by decide) (by decide) (by decide) (by decide) (by decide)

/-- C8 counterexample: on the cavity board the stones are disjoint from the
non-empty out-of-bounds set and every cell adjacent to an out-of-bounds cell
is a stone, so the boundary fully separates the playable region from the
out-of-bounds set; but that set is not 4-connected, to_sgf emits its single
triangle in the outside component, and from_sgf recovers only that
component: the round trip returns a board missing the sealed cavity, not
the original board. -/
theorem sgf_round_trip_counterexample :
    cavityBlack &&& cavityOob = 0 ∧ ¬ cavityOob = 0 ∧
    immediateExterior cavityOob &&& notB (cavityBlack ||| 0) = 0 ∧
    ¬ floodFill (firstCellBoard cavityOob) cavityOob = cavityOob ∧
    (to_sgf (GoBoard.new cavityBlack 0 cavityOob)).bind (fun tokens => from_sgf [tokens]) =
      some (GoGame.from_board (GoBoard.new cavityBlack 0 cavityOutside) .Black) ∧
    ¬ GoBoard.new cavityBlack 0 cavityOutside = GoBoard.new cavityBlack 0 cavityOob := by
  refine ⟨by decide, by decide, by decide, by decide, by decide, by decide⟩

end Tsumego
